import Mathlib

/-!
Verification of the differential text-synchronization core of the repository:
the dual diff algorithm in `src/public/js/fastdiff.js` (the boundary engine
`fastDiff` and the Wu O(NP) shortest-edit-script engine inside `diff`), the
patch compactor `diffToChanges`, and the client synchronization step
(`applyLocalChanges` / `applyChanges` / `getChanges` in `src/public/js/client.js`).

Modelling conventions:
* A JavaScript array slot is `Option α`: `some v` is a proper element, `none`
  is the JS `undefined` value. A JS string converted via `Array.prototype.slice`
  or `Array.from` is a list of `some`-characters.
* Reading `arr[i]` out of range yields `undefined`, i.e. `none` (`jget`).
* The JS do-while loop of the edit-script search is modelled with explicit
  fuel; we prove separately that the fuel chosen in `sesDiff` always suffices,
  so the `Option` returned by `diff` is always `some` (mirroring the fact that
  the JS loop always terminates).
-/

set_option maxHeartbeats 1000000

namespace LiveCoding

/-- The three atomic operations of an edit script (`'insert' | 'delete' | 'equal'`). -/
inductive DiffOp : Type
  | insert
  | delete
  | equal
deriving DecidableEq, Repr

/-- A compacted patch operation, as produced by `diffToChanges` and
`changeIndexesToChanges`: `{type:'insert', index, values}` or
`{type:'delete', index, howMany}`. -/
inductive Change (α : Type) : Type
  | insert (index : Nat) (values : List (Option α))
  | delete (index : Nat) (howMany : Nat)
deriving DecidableEq, Repr

variable {α : Type}

/-- JS array read `l[i]` for a natural index: out-of-range reads give `undefined`. -/
def jget (l : List (Option α)) (i : Nat) : Option α :=
  (l.get? i).getD none

/-- JS array read `l[i]` for a possibly negative index. -/
def jgetI (l : List (Option α)) (i : Int) : Option α :=
  if 0 ≤ i then jget l i.toNat else none

/-- The default comparator of `fastDiff` and `diff`: `(a, b) => a === b`.
On chars / primitive values, `===` is value equality; `undefined === undefined`
is `true`, which is exactly equality on `Option α`. -/
def jsStrictEq [DecidableEq α] (u v : Option α) : Bool :=
  u = v

/-- `findFirstDifferenceIndex(arr1, arr2, cmp)` (fastdiff.js lines 56-63):
first `i < max(len1,len2)` with `arr1[i] === undefined || arr2[i] === undefined
|| !cmp(arr1[i], arr2[i])`; `none` models the return value `-1`. -/
def findFirstDifferenceIndex (cmp : Option α → Option α → Bool)
    (arr1 arr2 : List (Option α)) : Option Nat :=
  (List.range (max arr1.length arr2.length)).find? fun i =>
    (jget arr1 i).isNone || (jget arr2 i).isNone || !cmp (jget arr1 i) (jget arr2 i)

/-- `cutAndReverse(arr, howMany)` (fastdiff.js lines 71-73). -/
def cutAndReverse (arr : List (Option α)) (howMany : Nat) : List (Option α) :=
  (arr.drop howMany).reverse

/-- The change boundary record `{firstIndex, lastIndexOld, lastIndexNew}` in the
non-degenerate case; the `{-1, -1, -1}` record is modelled as `none` at the
use sites. `lastIndexOld`/`lastIndexNew` are kept as integers exactly as the JS
subtractions produce them. -/
structure ChangeBoundary : Type where
  firstIndex : Nat
  lastIndexOld : Int
  lastIndexNew : Int
deriving DecidableEq, Repr

/-- `findChangeBoundaryIndexes(arr1, arr2, cmp)` (fastdiff.js lines 28-47).
`none` models the `{firstIndex: -1, ...}` record returned for identical inputs. -/
def findChangeBoundaryIndexes (cmp : Option α → Option α → Bool)
    (arr1 arr2 : List (Option α)) : Option ChangeBoundary :=
  match findFirstDifferenceIndex cmp arr1 arr2 with
  | none => none
  | some firstIndex =>
    let oldArrayReversed := cutAndReverse arr1 firstIndex
    let newArrayReversed := cutAndReverse arr2 firstIndex
    let lastIndex : Int :=
      match findFirstDifferenceIndex cmp oldArrayReversed newArrayReversed with
      | none => -1
      | some j => (j : Int)
    some ⟨firstIndex, (arr1.length : Int) - lastIndex, (arr2.length : Int) - lastIndex⟩

/-- `changeIndexesToChanges(newArray, changeIndexes)` (fastdiff.js lines 81-103).
`newArray.slice(firstIndex, lastIndexNew)` is `take` then `drop`;
the delete index is `firstIndex + (lastIndexNew - firstIndex)` as in the source. -/
def changeIndexesToChanges (newArray : List (Option α)) (ci : Option ChangeBoundary) :
    List (Change α) :=
  match ci with
  | none => []
  | some ⟨firstIndex, lastIndexOld, lastIndexNew⟩ =>
    (if 0 < lastIndexNew - (firstIndex : Int) then
      [Change.insert firstIndex ((newArray.take lastIndexNew.toNat).drop firstIndex)]
    else []) ++
    (if 0 < lastIndexOld - (firstIndex : Int) then
      [Change.delete ((firstIndex : Int) + (lastIndexNew - (firstIndex : Int))).toNat
        (lastIndexOld - (firstIndex : Int)).toNat]
    else [])

/-- `changeIndexesToAtomicChanges(changeIndexes, newLength)` (fastdiff.js lines 111-122). -/
def changeIndexesToAtomicChanges (ci : Option ChangeBoundary) (newLength : Nat) :
    List DiffOp :=
  match ci with
  | none => List.replicate newLength DiffOp.equal
  | some ⟨firstIndex, lastIndexOld, lastIndexNew⟩ =>
    (if 0 < firstIndex then List.replicate firstIndex DiffOp.equal else []) ++
    (if 0 < lastIndexNew - (firstIndex : Int) then
      List.replicate (lastIndexNew - (firstIndex : Int)).toNat DiffOp.insert
    else []) ++
    (if 0 < lastIndexOld - (firstIndex : Int) then
      List.replicate (lastIndexOld - (firstIndex : Int)).toNat DiffOp.delete
    else []) ++
    (if lastIndexNew < (newLength : Int) then
      List.replicate ((newLength : Int) - lastIndexNew).toNat DiffOp.equal
    else [])

/-- `fastDiff(a, b, cmp, true)` (fastdiff.js lines 9-19): boundary engine in
atomic mode. -/
def fastDiffAtomic (cmp : Option α → Option α → Bool) (a b : List (Option α)) :
    List DiffOp :=
  changeIndexesToAtomicChanges (findChangeBoundaryIndexes cmp a b) b.length

/-- `fastDiff(a, b, cmp, false)` (fastdiff.js lines 9-19): boundary engine in
compacted (default) mode. -/
def fastDiffCompacted (cmp : Option α → Option α → Bool) (a b : List (Option α)) :
    List (Change α) :=
  changeIndexesToChanges b (findChangeBoundaryIndexes cmp a b)

/-- The mutable per-diagonal state of the shortest-edit-script search in `diff`
(fastdiff.js lines 154-155): `es` (edit scripts) and `fp` (furthest points),
JS objects keyed by the diagonal number. -/
structure ESState : Type where
  fp : Int → Option Nat
  es : Int → Option (List DiffOp)

/-- The guard of the `while` loop of `snake` (fastdiff.js line 171):
`x < m && y < n && cmp(a[x], b[y])`, with `x = y - k` on diagonal `k`. -/
def canStep (cmp : Option α → Option α → Bool) (a b : List (Option α))
    (k : Int) (y : Nat) : Prop :=
  (y : Int) - k < (a.length : Int) ∧ y < b.length ∧
    cmp (jgetI a ((y : Int) - k)) (jget b y) = true

instance {cmp : Option α → Option α → Bool} {a b : List (Option α)} {k : Int} {y : Nat} :
    Decidable (canStep cmp a b k y) := by
  unfold canStep
  infer_instance

/-- Fueled runner for the diagonal extension of `snake`: count the iterations
of the guarded `while` loop starting from `y`. Each iteration needs
`y < b.length`, so `b.length - y` units of fuel always suffice. -/
def extendLenF (cmp : Option α → Option α → Bool) (a b : List (Option α))
    (k : Int) : Nat → Nat → Nat
  | 0, _ => 0
  | fuel + 1, y =>
    if canStep cmp a b k y then extendLenF cmp a b k fuel (y + 1) + 1 else 0

/-- The diagonal extension of `snake` (fastdiff.js lines 171-175): the number of
iterations of `while (x < m && y < n && cmp(a[x], b[y])) { x++; y++; ... }`
starting from `y` on diagonal `k` (so `x = y - k`). -/
def extendLen (cmp : Option α → Option α → Bool) (a b : List (Option α))
    (k : Int) (y : Nat) : Nat :=
  extendLenF cmp a b k (b.length - y) y

/-- The JS read `fp[k] !== undefined ? fp[k] : -1` used by `snake`. -/
def fpRead (o : Option Nat) : Int :=
  match o with
  | some v => (v : Int)
  | none => -1

/-- `snake(k)` (fastdiff.js lines 158-178) together with the caller's
`fp[k] = snake(k)` assignment: computes the new `es[k]` and `fp[k]`.
`ins`/`del` are the `_insert`/`_delete` token values fixed by the caller. -/
def snake (cmp : Option α → Option α → Bool) (a b : List (Option α))
    (ins del : DiffOp) (st : ESState) (k : Int) : ESState :=
  let y1 : Int := fpRead (st.fp (k - 1)) + 1
  let y2 : Int := fpRead (st.fp (k + 1))
  let dir : Int := if y2 < y1 then -1 else 1
  let esBase : List DiffOp :=
    match st.es (k + dir) with
    | some l => l
    | none => match st.es k with | some l => l | none => []
  let tok : DiffOp := if y2 < y1 then ins else del
  let y0 : Nat := (max y1 y2).toNat
  let ext : Nat := extendLen cmp a b k y0
  let esk : List DiffOp := esBase ++ [tok] ++ List.replicate ext DiffOp.equal
  { fp := fun k' => if k' = k then some (y0 + ext) else st.fp k'
    es := fun k' => if k' = k then some esk else st.es k' }

/-- The diagonals visited by one iteration of the do-while loop of `diff`
(fastdiff.js lines 184-190), in visiting order: `k = -p .. delta-1` ascending,
then `k = delta+p .. delta+1` descending, then `delta`. -/
def roundKs (delta p : Nat) : List Int :=
  ((List.range (delta + p)).map fun i : Nat => (i : Int) - (p : Int)) ++
  ((List.range p).map fun i : Nat => (delta : Int) + (p : Int) - (i : Int)) ++
  [(delta : Int)]

/-- One iteration of the do-while loop of `diff`: run `snake` over all the
diagonals of the round. -/
def diffRound (cmp : Option α → Option α → Bool) (a b : List (Option α))
    (ins del : DiffOp) (delta p : Nat) (st : ESState) : ESState :=
  (roundKs delta p).foldl (fun s k => snake cmp a b ins del s k) st

/-- The do-while loop of `diff` (fastdiff.js lines 184-190), with explicit fuel:
run a round, then stop if `fp[delta] === n`, else continue with `p + 1`. -/
def diffLoop (cmp : Option α → Option α → Bool) (a b : List (Option α))
    (ins del : DiffOp) (delta n : Nat) : Nat → Nat → ESState → Option ESState
  | 0, _, _ => none
  | fuel + 1, p, st =>
    let st' := diffRound cmp a b ins del delta p st
    if st'.fp (delta : Int) = some n then some st'
    else diffLoop cmp a b ins del delta n fuel (p + 1) st'

/-- The shortest-edit-script branch of `diff` (fastdiff.js lines 142-193):
swap the inputs (and the insert/delete labels) when `bLength < aLength`, run
the furthest-point search, and return `es[delta].slice(1)`. The fuel
`b.length + 1` always suffices (`sesDiff_isSome` below). -/
def sesDiff (cmp : Option α → Option α → Bool) (A B : List (Option α)) :
    Option (List DiffOp) :=
  let a := if B.length < A.length then B else A
  let b := if B.length < A.length then A else B
  let ins := if B.length < A.length then DiffOp.delete else DiffOp.insert
  let del := if B.length < A.length then DiffOp.insert else DiffOp.delete
  let delta := b.length - a.length
  match diffLoop cmp a b ins del delta b.length (b.length + 1) 0
      ⟨fun _ => none, fun _ => none⟩ with
  | none => none
  | some st =>
    match st.es (delta : Int) with
    | none => none
    | some l => some (l.drop 1)

/-- `diff(a, b, cmp)` (fastdiff.js lines 131-194): dispatch to the boundary
engine in atomic mode for large inputs, else to the shortest-edit-script
engine. -/
def diff (cmp : Option α → Option α → Bool) (A B : List (Option α)) :
    Option (List DiffOp) :=
  if 200 < A.length ∨ 200 < B.length ∨ 300 < A.length + B.length then
    some (fastDiffAtomic cmp A B)
  else
    sesDiff cmp A B

/-- The loop state of `diffToChanges` (fastdiff.js lines 202-251): the emitted
`changes`, the running `index` into the new sequence, and the pending
`lastOperation`. -/
structure D2CState (α : Type) : Type where
  changes : List (Change α)
  index : Nat
  lastOperation : Option (Change α)

/-- `pushLast()` (fastdiff.js lines 241-246). -/
def pushLast (st : D2CState α) : D2CState α :=
  match st.lastOperation with
  | some op => { changes := st.changes ++ [op], index := st.index, lastOperation := none }
  | none => st

/-- The body of the `diff.forEach(change => ...)` loop of `diffToChanges`
(fastdiff.js lines 207-235). The `isContinuationOf` test is the match on
`lastOperation`. -/
def d2cStep (output : List (Option α)) (st : D2CState α) (change : DiffOp) :
    D2CState α :=
  match change with
  | DiffOp.equal =>
    let st1 := pushLast st
    { st1 with index := st1.index + 1 }
  | DiffOp.insert =>
    match st.lastOperation with
    | some (Change.insert i vs) =>
      { st with lastOperation := some (Change.insert i (vs ++ [jget output st.index]))
                index := st.index + 1 }
    | _ =>
      let st1 := pushLast st
      { st1 with lastOperation := some (Change.insert st1.index [jget output st1.index])
                 index := st1.index + 1 }
  | DiffOp.delete =>
    match st.lastOperation with
    | some (Change.delete i h) =>
      { st with lastOperation := some (Change.delete i (h + 1)) }
    | _ =>
      let st1 := pushLast st
      { st1 with lastOperation := some (Change.delete st1.index 1) }

/-- `diffToChanges(diff, output)` (fastdiff.js lines 202-251). -/
def diffToChanges (d : List DiffOp) (output : List (Option α)) : List (Change α) :=
  (pushLast (d.foldl (d2cStep output) ⟨[], 0, none⟩)).changes

/-- One `change` application of `applyChanges` (client.js):
`input.splice(index, 0, ...values)` for an insert and
`input.splice(index, howMany)` for a delete. -/
def applyChange (input : List (Option α)) : Change α → List (Option α)
  | Change.insert i vs => input.take i ++ vs ++ input.drop i
  | Change.delete i h => input.take i ++ input.drop (i + h)

/-- `applyChanges(input, changes)` (client.js lines 119-127): apply the patch
operations in list order. -/
def applyChanges (input : List (Option α)) (changes : List (Change α)) :
    List (Option α) :=
  changes.foldl applyChange input

/-- `getChanges(input, output)` (client.js lines 115-117): `diff` runs with its
default comparator. The `getD []` discharges the fuel `Option`; `diff` is in
fact always `some` (`diff_isSome` below). -/
def getChanges [DecidableEq α] (input output : List (Option α)) : List (Change α) :=
  diffToChanges ((diff jsStrictEq input output).getD []) output

/-- One firing of the debounce timer, i.e. `applyLocalChanges()` of client.js
(lines 44-60), as a pure state transformer. Input: the shadow copy `syncValue`,
the `keypressed` flag and the live-buffer snapshot `currentData`
(`Codeeditor.getValue()`). Output: the patch emitted on the socket (if any),
the new `syncValue`, and the new `keypressed` flag. The JS comparison
`output.join('') == input.join('')` is list equality (the buffers hold
characters, on which `join` is injective). -/
def applyLocalChanges [DecidableEq α] (syncValue : List (Option α))
    (keypressed : Bool) (currentData : List (Option α)) :
    Option (List (Change α)) × List (Option α) × Bool :=
  if keypressed then
    let input := syncValue
    let output := currentData
    let changes := getChanges input output
    let input1 := applyChanges input changes
    if output = input1 then (some changes, input1, false)
    else (none, syncValue, false)
  else (none, syncValue, keypressed)

/-- A JS string as a sequence: every slot holds a proper character. -/
def str (s : String) : List (Option Char) :=
  s.toList.map some

/-! ## Specification side: edit paths

`runTrace tIns tDel s a b` checks that the token list `s` is a valid edit path
transforming `a` into `b`: a `tIns` token consumes (inserts) one element of the
new sequence `b`, a `tDel` token consumes (deletes) one element of the old
sequence `a`, and an `equal` token consumes one element of each, which must
satisfy the comparator. The two token parameters let the same predicate serve
the swapped run of `diff` (where the labels are exchanged). -/

def runTrace (cmp : Option α → Option α → Bool) (tIns tDel : DiffOp) :
    List DiffOp → List (Option α) → List (Option α) → Bool
  | [], a, b => a.isEmpty && b.isEmpty
  | t :: s, a, b =>
    if t = DiffOp.equal then
      match a, b with
      | x :: a', y :: b' => cmp x y && runTrace cmp tIns tDel s a' b'
      | _, _ => false
    else if t = tIns then
      match b with
      | _ :: b' => runTrace cmp tIns tDel s a b'
      | [] => false
    else if t = tDel then
      match a with
      | _ :: a' => runTrace cmp tIns tDel s a' b
      | [] => false
    else false

/-- `PT s x y`: the token list `s` is a valid edit path from `(0,0)` to the
point `(x, y)` of the edit graph of `a` and `b`: it transforms the `x`-prefix
of `a` into the `y`-prefix of `b`. -/
def PT (cmp : Option α → Option α → Bool) (tIns tDel : DiffOp)
    (a b : List (Option α)) (s : List DiffOp) (x y : Nat) : Prop :=
  x ≤ a.length ∧ y ≤ b.length ∧
    runTrace cmp tIns tDel s (a.take x) (b.take y) = true

/-! ## Specification-side notions used by the proofs -/

/-- Number of occurrences of a token in a script (specification-side counter). -/
def countTok (t : DiffOp) : List DiffOp → Nat
  | [] => 0
  | u :: s => (if u = t then 1 else 0) + countTok t s

/-- `(x, y)` is reachable from `(0,0)` by a valid path with exactly `d`
delete (`tDel`) tokens. -/
def ReachD (cmp : Option α → Option α → Bool) (tIns tDel : DiffOp)
    (a b : List (Option α)) (x y d : Nat) : Prop :=
  ∃ s, PT cmp tIns tDel a b s x y ∧ countTok tDel s = d

/-- `y` is the row of the furthest point on diagonal `k` reachable with
exactly `d` deletes. -/
def FurthestOn (cmp : Option α → Option α → Bool) (tIns tDel : DiffOp)
    (a b : List (Option α)) (k : Int) (d y : Nat) : Prop :=
  (∃ x : Nat, (x : Int) = (y : Int) - k ∧ ReachD cmp tIns tDel a b x y d) ∧
  (∀ x' y' : Nat, (x' : Int) = (y' : Int) - k →
    ReachD cmp tIns tDel a b x' y' d → y' ≤ y)

/-- No point of diagonal `k` is reachable with exactly `d` deletes. -/
def NoReach (cmp : Option α → Option α → Bool) (tIns tDel : DiffOp)
    (a b : List (Option α)) (k : Int) (d : Nat) : Prop :=
  ∀ x y : Nat, (x : Int) = (y : Int) - k → ¬ ReachD cmp tIns tDel a b x y d

/-- The master invariant for one diagonal of the search state: `fp[k]` holds
the row of the furthest point on diagonal `k` with exactly `d` deletes, and
`es[k]` holds a witness script for it after its leading bootstrap token. -/
def GoodDiag (cmp : Option α → Option α → Bool) (tIns tDel : DiffOp)
    (a b : List (Option α)) (st : ESState) (k : Int) (d : Nat) : Prop :=
  ∃ y s, st.fp k = some y ∧ st.es k = some s ∧ s ≠ [] ∧
    (0 : Int) ≤ (y : Int) - k ∧
    PT cmp tIns tDel a b (s.drop 1) (((y : Int) - k).toNat) y ∧
    countTok tDel (s.drop 1) = d ∧
    FurthestOn cmp tIns tDel a b k d y

/-- The whole-state invariant: `dom` records which diagonals hold a value and
with which delete budget; all other diagonals are untouched. -/
def InvMap (cmp : Option α → Option α → Bool) (tIns tDel : DiffOp)
    (a b : List (Option α)) (st : ESState) (dom : Int → Option Nat) : Prop :=
  ∀ k : Int,
    (∀ d, dom k = some d → GoodDiag cmp tIns tDel a b st k d) ∧
    (dom k = none → st.fp k = none ∧ st.es k = none)

/-- The delete budget Wu's recurrence assigns to diagonal `k` at stage `p`. -/
def Dof (delta p : Nat) (k : Int) : Nat :=
  if k ≤ (delta : Int) then p else p - (k - (delta : Int)).toNat

/-- The domain map after a completed stage `p` of the do-while loop. -/
def StageDom (delta p : Nat) : Int → Option Nat := fun k =>
  if -(p : Int) ≤ k ∧ k ≤ (delta : Int) + p then some (Dof delta p k) else none

/-- The domain map before stage `p` (empty before stage 0). -/
def PrevDom (delta p : Nat) : Int → Option Nat := fun k =>
  if 1 ≤ p ∧ -(p : Int) + 1 ≤ k ∧ k ≤ (delta : Int) + p - 1 then
    some (Dof delta (p - 1) k)
  else none

/-- The domain map after `c` steps of the ascending sweep of stage `p`. -/
def AscDom (delta p c : Nat) : Int → Option Nat := fun k =>
  if -(p : Int) ≤ k ∧ k < -(p : Int) + c then some p else PrevDom delta p k

/-- The domain map after `c` steps of the descending sweep of stage `p`. -/
def DescDom (delta p c : Nat) : Int → Option Nat := fun k =>
  if (delta : Int) + p - c < k ∧ k ≤ (delta : Int) + p then
    some (p - (k - (delta : Int)).toNat)
  else AscDom delta p (delta + p) k

/-- The mid-fold invariant of `diffToChanges`: the effect of the flushed
changes plus the pending operation rebuilds the processed prefix of `B`
followed by the unprocessed suffix of `A`. -/
def PendInv (A B : List (Option α)) (st : D2CState α) (xa yb : Nat) : Prop :=
  match st.lastOperation with
  | none => applyChanges A st.changes = B.take yb ++ A.drop xa
  | some (Change.insert i vs) =>
      i + vs.length = yb ∧ i ≤ yb ∧ vs = (B.take yb).drop i ∧
        applyChanges A st.changes = B.take i ++ A.drop xa
  | some (Change.delete i h) =>
      i = yb ∧ h ≤ xa ∧ applyChanges A st.changes = B.take yb ++ A.drop (xa - h)

def nontrivialChange : Change α → Prop
  | Change.insert _ vs => vs ≠ []
  | Change.delete _ h => 1 ≤ h


section TraceLemmas

variable {cmp : Option α → Option α → Bool} {tIns tDel : DiffOp}
variable {a b : List (Option α)}

theorem runTrace_nil_iff {A B : List (Option α)} :
    runTrace cmp tIns tDel [] A B = true ↔ A = [] ∧ B = [] := by
  simp [runTrace, List.isEmpty_iff]

theorem runTrace_cons {t : DiffOp} {s : List DiffOp} {A B : List (Option α)} :
    runTrace cmp tIns tDel (t :: s) A B =
      (if t = DiffOp.equal then
        match A, B with
        | x :: A', y :: B' => cmp x y && runTrace cmp tIns tDel s A' B'
        | _, _ => false
      else if t = tIns then
        match B with
        | _ :: B' => runTrace cmp tIns tDel s A B'
        | [] => false
      else if t = tDel then
        match A with
        | _ :: A' => runTrace cmp tIns tDel s A' B
        | [] => false
      else false) := by
  rfl

theorem runTrace_tokens {s : List DiffOp} {A B : List (Option α)}
    (h : runTrace cmp tIns tDel s A B = true) :
    ∀ t ∈ s, t = DiffOp.equal ∨ t = tIns ∨ t = tDel := by
  induction s generalizing A B with
  | nil => simp
  | cons t s ih =>
    intro t' ht'
    rcases List.mem_cons.mp ht' with rfl | ht'
    · by_cases h1 : t' = DiffOp.equal
      · exact Or.inl h1
      · by_cases h2 : t' = tIns
        · exact Or.inr (Or.inl h2)
        · by_cases h3 : t' = tDel
          · exact Or.inr (Or.inr h3)
          · rw [runTrace_cons, if_neg h1, if_neg h2, if_neg h3] at h
            exact absurd h (by simp)
    · rw [runTrace_cons] at h
      by_cases h1 : t = DiffOp.equal
      · rw [if_pos h1] at h
        match A, B with
        | [], [] => exact absurd h (by simp)
        | [], _ :: _ => exact absurd h (by simp)
        | _ :: _, [] => exact absurd h (by simp)
        | x :: A', y :: B' =>
          simp only [Bool.and_eq_true] at h
          exact ih h.2 t' ht'
      · rw [if_neg h1] at h
        by_cases h2 : t = tIns
        · rw [if_pos h2] at h
          match B with
          | [] => exact absurd h (by simp)
          | _ :: B' => exact ih h t' ht'
        · rw [if_neg h2] at h
          by_cases h3 : t = tDel
          · rw [if_pos h3] at h
            match A with
            | [] => exact absurd h (by simp)
            | _ :: A' => exact ih h t' ht'
          · rw [if_neg h3] at h
            exact absurd h (by simp)

theorem countTok_nil {t : DiffOp} : countTok t [] = 0 := rfl

theorem countTok_cons {t u : DiffOp} {s : List DiffOp} :
    countTok t (u :: s) = (if u = t then 1 else 0) + countTok t s := rfl

theorem countTok_cons_self {t : DiffOp} {s : List DiffOp} :
    countTok t (t :: s) = countTok t s + 1 := by
  rw [countTok_cons, if_pos rfl]; omega

theorem countTok_cons_ne {t u : DiffOp} (h : u ≠ t) {s : List DiffOp} :
    countTok t (u :: s) = countTok t s := by
  rw [countTok_cons, if_neg h]; omega

theorem countTok_append {t : DiffOp} {s₁ s₂ : List DiffOp} :
    countTok t (s₁ ++ s₂) = countTok t s₁ + countTok t s₂ := by
  induction s₁ with
  | nil => simp [countTok]
  | cons u s ih => simp [countTok_cons, ih]; omega

theorem countTok_replicate {t u : DiffOp} {j : Nat} :
    countTok t (List.replicate j u) = if u = t then j else 0 := by
  induction j with
  | zero => simp [countTok]
  | succ j ih =>
    rw [List.replicate_succ, countTok_cons, ih]
    split <;> omega

theorem countTok_le_length {t : DiffOp} {s : List DiffOp} :
    countTok t s ≤ s.length := by
  induction s with
  | nil => simp [countTok]
  | cons u s ih =>
    rw [countTok_cons]
    simp only [List.length_cons]
    split <;> omega

/-- A valid path consumes exactly `countTok tDel + countTok equal` old elements
and `countTok tIns + countTok equal` new elements. -/
theorem runTrace_counts (hIE : tIns ≠ DiffOp.equal) (hDE : tDel ≠ DiffOp.equal)
    (hID : tIns ≠ tDel) {s : List DiffOp} {A B : List (Option α)}
    (h : runTrace cmp tIns tDel s A B = true) :
    countTok tDel s + countTok DiffOp.equal s = A.length ∧
      countTok tIns s + countTok DiffOp.equal s = B.length := by
  induction s generalizing A B with
  | nil =>
    rw [runTrace_nil_iff] at h
    simp [h.1, h.2, countTok]
  | cons t s ih =>
    rw [runTrace_cons] at h
    by_cases h1 : t = DiffOp.equal
    · subst h1
      rw [if_pos rfl] at h
      match A, B with
      | [], [] => exact absurd h (by simp)
      | [], _ :: _ => exact absurd h (by simp)
      | _ :: _, [] => exact absurd h (by simp)
      | x :: A', y :: B' =>
        simp only [Bool.and_eq_true] at h
        have := ih h.2
        rw [countTok_cons_ne (fun hh => hDE hh.symm), countTok_cons_self,
          countTok_cons_ne (fun hh => hIE hh.symm)]
        simp only [List.length_cons]
        omega
    · rw [if_neg h1] at h
      by_cases h2 : t = tIns
      · subst h2
        rw [if_pos rfl] at h
        match B with
        | [] => exact absurd h (by simp)
        | _ :: B' =>
          have := ih h
          rw [countTok_cons_ne hID, countTok_cons_ne hIE, countTok_cons_self]
          simp only [List.length_cons]
          omega
      · rw [if_neg h2] at h
        by_cases h3 : t = tDel
        · subst h3
          rw [if_pos rfl] at h
          match A with
          | [] => exact absurd h (by simp)
          | _ :: A' =>
            have := ih h
            rw [countTok_cons_self, countTok_cons_ne hDE,
              countTok_cons_ne (fun hh => hID hh.symm)]
            simp only [List.length_cons]
            omega
        · rw [if_neg h3] at h
          exact absurd h (by simp)

theorem runTrace_append {s₁ s₂ : List DiffOp} {A₁ A₂ B₁ B₂ : List (Option α)}
    (h₁ : runTrace cmp tIns tDel s₁ A₁ B₁ = true)
    (h₂ : runTrace cmp tIns tDel s₂ A₂ B₂ = true) :
    runTrace cmp tIns tDel (s₁ ++ s₂) (A₁ ++ A₂) (B₁ ++ B₂) = true := by
  induction s₁ generalizing A₁ B₁ with
  | nil =>
    rw [runTrace_nil_iff] at h₁
    simpa [h₁.1, h₁.2] using h₂
  | cons t s ih =>
    rw [runTrace_cons] at h₁
    rw [List.cons_append, runTrace_cons]
    by_cases h1 : t = DiffOp.equal
    · rw [if_pos h1] at h₁ ⊢
      match A₁, B₁ with
      | [], [] => exact absurd h₁ (by simp)
      | [], _ :: _ => exact absurd h₁ (by simp)
      | _ :: _, [] => exact absurd h₁ (by simp)
      | x :: A', y :: B' =>
        simp only [Bool.and_eq_true] at h₁
        simp only [List.cons_append, Bool.and_eq_true]
        exact ⟨h₁.1, ih h₁.2⟩
    · rw [if_neg h1] at h₁ ⊢
      by_cases h2 : t = tIns
      · rw [if_pos h2] at h₁ ⊢
        match B₁ with
        | [] => exact absurd h₁ (by simp)
        | _ :: B' => exact ih h₁
      · rw [if_neg h2] at h₁ ⊢
        by_cases h3 : t = tDel
        · rw [if_pos h3] at h₁ ⊢
          match A₁ with
          | [] => exact absurd h₁ (by simp)
          | _ :: A' => exact ih h₁
        · rw [if_neg h3] at h₁
          exact absurd h₁ (by simp)

theorem runTrace_append_split {s₁ s₂ : List DiffOp} {A B : List (Option α)}
    (h : runTrace cmp tIns tDel (s₁ ++ s₂) A B = true) :
    ∃ A₁ A₂ B₁ B₂, A = A₁ ++ A₂ ∧ B = B₁ ++ B₂ ∧
      runTrace cmp tIns tDel s₁ A₁ B₁ = true ∧
      runTrace cmp tIns tDel s₂ A₂ B₂ = true := by
  induction s₁ generalizing A B with
  | nil =>
    exact ⟨[], A, [], B, rfl, rfl, by simp [runTrace], h⟩
  | cons t s ih =>
    rw [List.cons_append, runTrace_cons] at h
    by_cases h1 : t = DiffOp.equal
    · rw [if_pos h1] at h
      match A, B with
      | [], [] => exact absurd h (by simp)
      | [], _ :: _ => exact absurd h (by simp)
      | _ :: _, [] => exact absurd h (by simp)
      | x :: A', y :: B' =>
        simp only [Bool.and_eq_true] at h
        obtain ⟨A₁, A₂, B₁, B₂, rfl, rfl, hs, hs₂⟩ := ih h.2
        refine ⟨x :: A₁, A₂, y :: B₁, B₂, rfl, rfl, ?_, hs₂⟩
        rw [runTrace_cons, if_pos h1]
        simp [h.1, hs]
    · rw [if_neg h1] at h
      by_cases h2 : t = tIns
      · rw [if_pos h2] at h
        match B with
        | [] => exact absurd h (by simp)
        | y :: B' =>
          obtain ⟨A₁, A₂, B₁, B₂, rfl, rfl, hs, hs₂⟩ := ih h
          refine ⟨A₁, A₂, y :: B₁, B₂, rfl, rfl, ?_, hs₂⟩
          rw [runTrace_cons, if_neg h1, if_pos h2]
          exact hs
      · rw [if_neg h2] at h
        by_cases h3 : t = tDel
        · rw [if_pos h3] at h
          match A with
          | [] => exact absurd h (by simp)
          | x :: A' =>
            obtain ⟨A₁, A₂, B₁, B₂, rfl, rfl, hs, hs₂⟩ := ih h
            refine ⟨x :: A₁, A₂, B₁, B₂, rfl, rfl, ?_, hs₂⟩
            rw [runTrace_cons, if_neg h1, if_neg h2, if_pos h3]
            exact hs
        · rw [if_neg h3] at h
          exact absurd h (by simp)

theorem jget_eq_of_lt {l : List (Option α)} {i : Nat} (h : i < l.length) :
    l.get? i = some (jget l i) := by
  rw [jget]
  cases hg : l.get? i with
  | none =>
    rw [List.get?_eq_none] at hg
    omega
  | some v => simp

theorem jgetI_ofNat {l : List (Option α)} {x : Nat} :
    jgetI l (x : Int) = jget l x := by
  rw [jgetI, if_pos (by omega)]
  simp

theorem take_succ_jget {l : List (Option α)} {i : Nat} (h : i < l.length) :
    l.take (i + 1) = l.take i ++ [jget l i] := by
  rw [List.take_succ, show l[i]? = some (jget l i) from ?_]
  · rfl
  · rw [← List.get?_eq_getElem?]
    exact jget_eq_of_lt h

theorem PT_zero : PT cmp tIns tDel a b [] 0 0 := by
  refine ⟨Nat.zero_le _, Nat.zero_le _, ?_⟩
  simp [runTrace]

theorem PT_counts (hIE : tIns ≠ DiffOp.equal) (hDE : tDel ≠ DiffOp.equal)
    (hID : tIns ≠ tDel) {s : List DiffOp} {x y : Nat}
    (h : PT cmp tIns tDel a b s x y) :
    countTok tDel s + countTok DiffOp.equal s = x ∧
      countTok tIns s + countTok DiffOp.equal s = y := by
  obtain ⟨hx, hy, hr⟩ := h
  have := runTrace_counts hIE hDE hID hr
  rwa [List.length_take, List.length_take, Nat.min_eq_left hx, Nat.min_eq_left hy] at this

theorem PT_nil_inv {x y : Nat} (h : PT cmp tIns tDel a b [] x y) : x = 0 ∧ y = 0 := by
  obtain ⟨hx, hy, hr⟩ := h
  rw [runTrace_nil_iff] at hr
  have h1 := congrArg List.length hr.1
  have h2 := congrArg List.length hr.2
  rw [List.length_take] at h1 h2
  simp only [List.length_nil] at h1 h2
  omega

theorem PT_snoc_ins (hIE : tIns ≠ DiffOp.equal) {s : List DiffOp} {x y : Nat}
    (h : PT cmp tIns tDel a b s x y) (hy : y < b.length) :
    PT cmp tIns tDel a b (s ++ [tIns]) x (y + 1) := by
  obtain ⟨hx, hyl, hr⟩ := h
  refine ⟨hx, by omega, ?_⟩
  rw [take_succ_jget hy, show a.take x = a.take x ++ [] by simp]
  exact runTrace_append hr (by simp [runTrace_cons, runTrace, hIE])

theorem PT_snoc_del (hDE : tDel ≠ DiffOp.equal) (hID : tIns ≠ tDel)
    {s : List DiffOp} {x y : Nat}
    (h : PT cmp tIns tDel a b s x y) (hx : x < a.length) :
    PT cmp tIns tDel a b (s ++ [tDel]) (x + 1) y := by
  obtain ⟨hxl, hyl, hr⟩ := h
  have hDI : tDel ≠ tIns := fun hh => hID hh.symm
  refine ⟨by omega, hyl, ?_⟩
  rw [take_succ_jget hx, show b.take y = b.take y ++ [] by simp]
  exact runTrace_append hr (by simp [runTrace_cons, runTrace, hDE, hDI])

theorem PT_snoc_eq {s : List DiffOp} {x y : Nat}
    (h : PT cmp tIns tDel a b s x y) (hx : x < a.length) (hy : y < b.length)
    (hc : cmp (jget a x) (jget b y) = true) :
    PT cmp tIns tDel a b (s ++ [DiffOp.equal]) (x + 1) (y + 1) := by
  obtain ⟨hxl, hyl, hr⟩ := h
  refine ⟨by omega, by omega, ?_⟩
  rw [take_succ_jget hx, take_succ_jget hy]
  exact runTrace_append hr (by simp [runTrace_cons, runTrace, hc])

theorem runTrace_single_shape {t : DiffOp} {A B : List (Option α)}
    (h : runTrace cmp tIns tDel [t] A B = true) :
    (t = DiffOp.equal ∧ ∃ u v, A = [u] ∧ B = [v] ∧ cmp u v = true) ∨
    (t ≠ DiffOp.equal ∧ t = tIns ∧ A = [] ∧ ∃ v, B = [v]) ∨
    (t ≠ DiffOp.equal ∧ t ≠ tIns ∧ t = tDel ∧ B = [] ∧ ∃ u, A = [u]) := by
  rw [runTrace_cons] at h
  by_cases h1 : t = DiffOp.equal
  · rw [if_pos h1] at h
    match A, B with
    | [], [] => exact absurd h (by simp)
    | [], _ :: _ => exact absurd h (by simp)
    | _ :: _, [] => exact absurd h (by simp)
    | u :: A', v :: B' =>
      simp only [Bool.and_eq_true] at h
      have := runTrace_nil_iff.mp h.2
      exact Or.inl ⟨h1, u, v, by rw [this.1], by rw [this.2], h.1⟩
  · rw [if_neg h1] at h
    by_cases h2 : t = tIns
    · rw [if_pos h2] at h
      match B with
      | [] => exact absurd h (by simp)
      | v :: B' =>
        have := runTrace_nil_iff.mp h
        exact Or.inr (Or.inl ⟨h1, h2, this.1, v, by rw [this.2]⟩)
    · rw [if_neg h2] at h
      by_cases h3 : t = tDel
      · rw [if_pos h3] at h
        match A with
        | [] => exact absurd h (by simp)
        | u :: A' =>
          have := runTrace_nil_iff.mp h
          exact Or.inr (Or.inr ⟨h1, h2, h3, this.2, u, by rw [this.1]⟩)
      · rw [if_neg h3] at h
        exact absurd h (by simp)

theorem take_eq_of_append_single {l : List (Option α)} {L : List (Option α)}
    {v : Option α} {y : Nat} (hy : y ≤ l.length) (h : L ++ [v] = l.take y) :
    1 ≤ y ∧ L = l.take (y - 1) ∧ v = jget l (y - 1) := by
  have hlen := congrArg List.length h
  rw [List.length_append, List.length_take, Nat.min_eq_left hy] at hlen
  simp only [List.length_singleton] at hlen
  have hy1 : 1 ≤ y := by omega
  have hL : L.length = y - 1 := by omega
  have hy2 : y - 1 < l.length := by omega
  have hsplit : l.take y = l.take (y - 1) ++ [jget l (y - 1)] := by
    rw [← take_succ_jget hy2]
    congr 1
    omega
  rw [hsplit] at h
  have := List.append_inj h (by rw [hL, List.length_take, Nat.min_eq_left (by omega)])
  exact ⟨hy1, this.1, by simpa using this.2⟩

theorem PT_snoc_ins_inv (hIE : tIns ≠ DiffOp.equal) (hID : tIns ≠ tDel)
    {s : List DiffOp} {x y : Nat}
    (h : PT cmp tIns tDel a b (s ++ [tIns]) x y) :
    1 ≤ y ∧ PT cmp tIns tDel a b s x (y - 1) := by
  obtain ⟨hx, hy, hr⟩ := h
  obtain ⟨A₁, A₂, B₁, B₂, hA, hB, h₁, h₂⟩ := runTrace_append_split hr
  rcases runTrace_single_shape h₂ with ⟨he, _⟩ | ⟨_, _, hA₂, v, hB₂⟩ | ⟨_, hni, _, _, _⟩
  · exact absurd he hIE
  · subst hA₂ hB₂
    obtain ⟨hy1, hB₁, _⟩ := take_eq_of_append_single hy hB.symm
    rw [List.append_nil] at hA
    refine ⟨hy1, hx, by omega, ?_⟩
    rw [hA, ← hB₁]
    exact h₁
  · exact absurd rfl hni

theorem PT_snoc_del_inv (hDE : tDel ≠ DiffOp.equal) (hID : tIns ≠ tDel)
    {s : List DiffOp} {x y : Nat}
    (h : PT cmp tIns tDel a b (s ++ [tDel]) x y) :
    1 ≤ x ∧ PT cmp tIns tDel a b s (x - 1) y := by
  obtain ⟨hx, hy, hr⟩ := h
  obtain ⟨A₁, A₂, B₁, B₂, hA, hB, h₁, h₂⟩ := runTrace_append_split hr
  rcases runTrace_single_shape h₂ with ⟨he, _⟩ | ⟨_, hti, _, _⟩ | ⟨_, _, _, hB₂, u, hA₂⟩
  · exact absurd he hDE
  · exact absurd hti.symm hID
  · subst hA₂ hB₂
    obtain ⟨hx1, hA₁, _⟩ := take_eq_of_append_single hx hA.symm
    rw [List.append_nil] at hB
    refine ⟨hx1, by omega, hy, ?_⟩
    rw [hB, ← hA₁]
    exact h₁

theorem PT_snoc_eq_inv (hIE : tIns ≠ DiffOp.equal) (hDE : tDel ≠ DiffOp.equal)
    {s : List DiffOp} {x y : Nat}
    (h : PT cmp tIns tDel a b (s ++ [DiffOp.equal]) x y) :
    1 ≤ x ∧ 1 ≤ y ∧ PT cmp tIns tDel a b s (x - 1) (y - 1) ∧
      cmp (jget a (x - 1)) (jget b (y - 1)) = true := by
  obtain ⟨hx, hy, hr⟩ := h
  obtain ⟨A₁, A₂, B₁, B₂, hA, hB, h₁, h₂⟩ := runTrace_append_split hr
  rcases runTrace_single_shape h₂ with ⟨_, u, v, hA₂, hB₂, hc⟩ | ⟨hne, _⟩ | ⟨hne, _⟩
  · subst hA₂ hB₂
    obtain ⟨hx1, hA₁, hu⟩ := take_eq_of_append_single hx hA.symm
    obtain ⟨hy1, hB₁, hv⟩ := take_eq_of_append_single hy hB.symm
    refine ⟨hx1, hy1, ⟨by omega, by omega, ?_⟩, by rw [← hu, ← hv]; exact hc⟩
    rw [← hA₁, ← hB₁]
    exact h₁
  · exact absurd rfl hne
  · exact absurd rfl hne

end TraceLemmas

section ExtendLemmas

variable {cmp : Option α → Option α → Bool} {tIns tDel : DiffOp}
variable {a b : List (Option α)} {k : Int}

theorem extendLen_unfold (y : Nat) :
    extendLen cmp a b k y =
      if canStep cmp a b k y then extendLen cmp a b k (y + 1) + 1 else 0 := by
  unfold extendLen
  cases hf : b.length - y with
  | zero =>
    have hnc : ¬ canStep cmp a b k y := by
      intro hc
      have := hc.2.1
      omega
    rw [if_neg hnc]
    rfl
  | succ fuel =>
    rw [show extendLenF cmp a b k (fuel + 1) y
        = if canStep cmp a b k y then extendLenF cmp a b k fuel (y + 1) + 1 else 0 from rfl]
    by_cases hc : canStep cmp a b k y
    · rw [if_pos hc, if_pos hc,
        show b.length - (y + 1) = fuel from by have := hc.2.1; omega]
    · rw [if_neg hc, if_neg hc]

theorem extendLen_sound_aux (g : Nat) :
    ∀ y, b.length - y ≤ g →
      ∀ i, y ≤ i → i < y + extendLen cmp a b k y → canStep cmp a b k i := by
  induction g with
  | zero =>
    intro y hg i hyi hi
    rw [extendLen_unfold] at hi
    split at hi
    · next hc => exact absurd hc.2.1 (by omega)
    · omega
  | succ g ih =>
    intro y hg i hyi hi
    rw [extendLen_unfold] at hi
    split at hi
    · next hc =>
      by_cases hiy : i = y
      · rwa [hiy]
      · have hb := hc.2.1
        exact ih (y + 1) (by omega) i (by omega) (by omega)
    · omega

/-- Every position strictly inside the extension run satisfies the loop guard. -/
theorem extendLen_sound {y i : Nat} (hyi : y ≤ i)
    (hi : i < y + extendLen cmp a b k y) : canStep cmp a b k i :=
  extendLen_sound_aux b.length y (by omega) i hyi hi

theorem extendLen_ge_aux (g : Nat) :
    ∀ y, b.length - y ≤ g → ∀ Y, y ≤ Y →
      (∀ i, y ≤ i → i < Y → canStep cmp a b k i) →
      Y ≤ y + extendLen cmp a b k y := by
  induction g with
  | zero =>
    intro y hg Y hy hall
    by_cases hYy : Y ≤ y
    · omega
    · have hc := hall y (by omega) (by omega)
      exact absurd hc.2.1 (by omega)
  | succ g ih =>
    intro y hg Y hy hall
    by_cases hYy : Y ≤ y
    · omega
    · have hc := hall y (by omega) (by omega)
      rw [extendLen_unfold, if_pos hc]
      have := ih (y + 1) (by have := hc.2.1; omega) Y (by omega)
        (fun i h1 h2 => hall i (by omega) h2)
      omega

/-- The extension run is maximal: it absorbs any run of guard-satisfying
positions that starts at or before its own start. -/
theorem extendLen_ge {y Y : Nat} (hy : y ≤ Y)
    (hall : ∀ i, y ≤ i → i < Y → canStep cmp a b k i) :
    Y ≤ y + extendLen cmp a b k y :=
  extendLen_ge_aux b.length y (by omega) Y hy hall

theorem extendLen_absorb {y0 Y j : Nat} (hj : Y - j ≤ y0)
    (hall : ∀ i, Y - j ≤ i → i < Y → canStep cmp a b k i) :
    Y ≤ y0 + extendLen cmp a b k y0 := by
  by_cases hYy : Y ≤ y0
  · omega
  · exact extendLen_ge (by omega) (fun i h1 h2 => hall i (by omega) h2)

variable (hIE : tIns ≠ DiffOp.equal) (hDE : tDel ≠ DiffOp.equal) (hID : tIns ≠ tDel)

theorem PT_eqRun_aux (g : Nat) :
    ∀ y x s, b.length - y ≤ g → PT cmp tIns tDel a b s x y → (x : Int) = (y : Int) - k →
      PT cmp tIns tDel a b (s ++ List.replicate (extendLen cmp a b k y) DiffOp.equal)
        (x + extendLen cmp a b k y) (y + extendLen cmp a b k y) := by
  induction g with
  | zero =>
    intro y x s hg h hd
    rw [extendLen_unfold]
    split
    · next hc => exact absurd hc.2.1 (by omega)
    · simpa using h
  | succ g ih =>
    intro y x s hg h hd
    rw [extendLen_unfold]
    split
    · next hc =>
      obtain ⟨hxm, hym, hcmp⟩ := hc
      have hxa : x < a.length := by omega
      have hstep : PT cmp tIns tDel a b (s ++ [DiffOp.equal]) (x + 1) (y + 1) := by
        refine PT_snoc_eq h hxa hym ?_
        rw [show ((y : Int) - k) = (x : Int) from hd.symm, jgetI_ofNat] at hcmp
        exact hcmp
      have := ih (y + 1) (x + 1) (s ++ [DiffOp.equal]) (by omega) hstep (by omega)
      rw [List.replicate_succ]
      rw [show s ++ (DiffOp.equal :: List.replicate (extendLen cmp a b k (y + 1)) DiffOp.equal)
        = (s ++ [DiffOp.equal]) ++ List.replicate (extendLen cmp a b k (y + 1)) DiffOp.equal by
          simp]
      have e1 : x + (extendLen cmp a b k (y + 1) + 1) = (x + 1) + extendLen cmp a b k (y + 1) := by
        omega
      have e2 : y + (extendLen cmp a b k (y + 1) + 1) = (y + 1) + extendLen cmp a b k (y + 1) := by
        omega
      rw [e1, e2]
      exact this
    · simpa using h

/-- Appending the `snake` extension run to a path ending on diagonal `k`. -/
theorem PT_eqRun {y x : Nat} {s : List DiffOp} (h : PT cmp tIns tDel a b s x y)
    (hd : (x : Int) = (y : Int) - k) :
    PT cmp tIns tDel a b (s ++ List.replicate (extendLen cmp a b k y) DiffOp.equal)
      (x + extendLen cmp a b k y) (y + extendLen cmp a b k y) :=
  PT_eqRun_aux b.length y x s (by omega) h hd

/-- Inverting a trailing equal-run: the earlier point and the guard facts. -/
theorem PT_eqRun_inv (hIE : tIns ≠ DiffOp.equal) (hDE : tDel ≠ DiffOp.equal) {j : Nat} :
    ∀ {x y : Nat} {s : List DiffOp},
      PT cmp tIns tDel a b (s ++ List.replicate j DiffOp.equal) x y →
      (x : Int) = (y : Int) - k →
      j ≤ x ∧ j ≤ y ∧ PT cmp tIns tDel a b s (x - j) (y - j) ∧
        ∀ i, y - j ≤ i → i < y → canStep cmp a b k i := by
  induction j with
  | zero =>
    intro x y s h hd
    refine ⟨by omega, by omega, by simpa using h, by omega⟩
  | succ j ih =>
    intro x y s h hd
    rw [List.replicate_succ'] at h
    rw [show s ++ (List.replicate j DiffOp.equal ++ [DiffOp.equal])
      = (s ++ List.replicate j DiffOp.equal) ++ [DiffOp.equal] by simp] at h
    obtain ⟨hx1, hy1, h', hcmp⟩ := PT_snoc_eq_inv hIE hDE h
    have hxa : x - 1 < a.length := by
      have := h.1
      omega
    have hyb : y - 1 < b.length := by
      have := h.2.1
      omega
    obtain ⟨hjx, hjy, hPT, hguard⟩ := ih h' (by omega)
    have e1 : x - (j + 1) = x - 1 - j := by omega
    have e2 : y - (j + 1) = y - 1 - j := by omega
    refine ⟨by omega, by omega, by rw [e1, e2]; exact hPT, ?_⟩
    intro i h1 h2
    by_cases hiy : i = y - 1
    · subst hiy
      refine ⟨by omega, by omega, ?_⟩
      rw [show (((y : Nat) - 1 : Nat) : Int) - k = ((x - 1 : Nat) : Int) by omega, jgetI_ofNat]
      exact hcmp
    · exact hguard i (by omega) (by omega)

end ExtendLemmas

section ReachLemmas

variable {cmp : Option α → Option α → Bool} {tIns tDel : DiffOp}
variable {a b : List (Option α)}

/-- A pure delete run reaching `(d, 0)`. -/
theorem PT_del_run (hDE : tDel ≠ DiffOp.equal) (hID : tIns ≠ tDel)
    {d : Nat} (hd : d ≤ a.length) :
    PT cmp tIns tDel a b (List.replicate d tDel) d 0 := by
  induction d with
  | zero => exact PT_zero
  | succ d ih =>
    rw [List.replicate_succ']
    exact PT_snoc_del hDE hID (ih (by omega)) (by omega)

/-- Extending a path by a pure insert run. -/
theorem PT_ins_run (hIE : tIns ≠ DiffOp.equal) {s : List DiffOp} {x y i : Nat}
    (h : PT cmp tIns tDel a b s x y) (hi : y + i ≤ b.length) :
    PT cmp tIns tDel a b (s ++ List.replicate i tIns) x (y + i) := by
  induction i with
  | zero => simpa using h
  | succ i ih =>
    rw [List.replicate_succ']
    rw [show s ++ (List.replicate i tIns ++ [tIns]) = (s ++ List.replicate i tIns) ++ [tIns]
      by simp]
    have := PT_snoc_ins hIE (ih (by omega)) (by omega)
    rw [show y + i + 1 = y + (i + 1) by omega] at this
    exact this

/-- The all-edit path: every feasible `(k, d)` pair has a reachable point
(delete `d` old elements, then insert `k + d` new ones). -/
theorem reach_allEdit (hIE : tIns ≠ DiffOp.equal) (hDE : tDel ≠ DiffOp.equal)
    (hID : tIns ≠ tDel) {k : Int} {d : Nat} (h1 : d ≤ a.length)
    (h2 : (k : Int) + d ≤ b.length) (h3 : -(d : Int) ≤ k) :
    ReachD cmp tIns tDel a b d ((k + d).toNat) d := by
  have hy : ((k + d).toNat : Int) = k + d := by omega
  refine ⟨List.replicate d tDel ++ List.replicate (k + d).toNat tIns, ?_, ?_⟩
  · have h0 : PT cmp tIns tDel a b (List.replicate d tDel) d 0 :=
      PT_del_run hDE hID h1
    have hle : (0 : Nat) + (k + d).toNat ≤ b.length := by omega
    have := PT_ins_run hIE h0 hle
    simpa using this
  · rw [countTok_append, countTok_replicate, countTok_replicate,
      if_pos rfl, if_neg hID]
    omega

/-- Every script decomposes as a prefix followed by a maximal trailing
equal-run, where the prefix is empty or ends in a non-equal token. -/
theorem exists_strip_eq (s : List DiffOp) :
    ∃ s' j, s = s' ++ List.replicate j DiffOp.equal ∧
      (s' = [] ∨ ∃ s'' t, s' = s'' ++ [t] ∧ t ≠ DiffOp.equal) := by
  induction s using List.reverseRecOn with
  | nil => exact ⟨[], 0, by simp, Or.inl rfl⟩
  | append_singleton s t ih =>
    by_cases ht : t = DiffOp.equal
    · obtain ⟨s', j, hs, hshape⟩ := ih
      subst ht
      refine ⟨s', j + 1, ?_, hshape⟩
      rw [hs, List.replicate_succ']
      simp
    · exact ⟨s ++ [t], 0, by simp, Or.inr ⟨s, t, rfl, ht⟩⟩

/-- The maximality half of the `snake` specification: given correct neighbour
furthest points below `y0`, no exactly-`d` path on diagonal `k` passes the
extension of `y0`. -/
theorem snake_max (hIE : tIns ≠ DiffOp.equal) (hDE : tDel ≠ DiffOp.equal)
    (hID : tIns ≠ tDel) {st : ESState} {k : Int} {d : Nat} {y0 : Nat}
    (hL : GoodDiag cmp tIns tDel a b st (k - 1) d ∨
      (st.fp (k - 1) = none ∧ NoReach cmp tIns tDel a b (k - 1) d))
    (hR : (1 ≤ d ∧ GoodDiag cmp tIns tDel a b st (k + 1) (d - 1)) ∨
      (st.fp (k + 1) = none ∧ (d = 0 ∨ NoReach cmp tIns tDel a b (k + 1) (d - 1))))
    (hy0L : ∀ yL, st.fp (k - 1) = some yL → yL + 1 ≤ y0)
    (hy0R : ∀ yR, st.fp (k + 1) = some yR → yR ≤ y0) :
    ∀ x' y' : Nat, (x' : Int) = (y' : Int) - k →
      ReachD cmp tIns tDel a b x' y' d →
      y' ≤ y0 + extendLen cmp a b k y0 := by
  intro x' y' hdiag ⟨s', hPT, hcount⟩
  obtain ⟨s'', j, hsplit, hshape⟩ := exists_strip_eq s'
  subst hsplit
  obtain ⟨hjx, hjy, hPT'', hguard⟩ := PT_eqRun_inv hIE hDE hPT hdiag
  rcases hshape with rfl | ⟨s₃, t, rfl, ht⟩
  · -- pure equal-run from the origin
    obtain ⟨hx0, hy0'⟩ := PT_nil_inv hPT''
    exact extendLen_absorb (by omega) hguard
  · -- the prefix ends with an edit token
    have htok : t = tIns ∨ t = tDel := by
      have hmem : t ∈ s₃ ++ [t] := by simp
      rcases runTrace_tokens hPT''.2.2 t hmem with he | h' | h'
      · exact absurd he ht
      · exact Or.inl h'
      · exact Or.inr h'
    rcases htok with ht4 | ht4
    · -- last edit is an insertion, from diagonal k - 1
      obtain ⟨hy1, hPT₃⟩ := PT_snoc_ins_inv hIE hID (ht4 ▸ hPT'')
      have hc3 : countTok tDel s₃ = d := by
        have he : countTok tDel ((s₃ ++ [t]) ++ List.replicate j DiffOp.equal)
            = countTok tDel s₃ := by
          rw [countTok_append, countTok_append, countTok_replicate,
            if_neg (Ne.symm hDE), countTok_cons_ne (ht4 ▸ hID), countTok_nil]
          omega
        rw [he] at hcount
        exact hcount
      have hdiag3 : ((x' - j : Nat) : Int) = ((y' - j - 1 : Nat) : Int) - (k - 1) := by
        omega
      rcases hL with hGL | ⟨_, hNR⟩
      · obtain ⟨yL, sL, hfpL, _, _, _, _, _, hFL⟩ := hGL
        have hle : y' - j - 1 ≤ yL := hFL.2 _ _ hdiag3 ⟨s₃, hPT₃, hc3⟩
        have := hy0L yL hfpL
        exact extendLen_absorb (by omega) hguard
      · exact absurd ⟨s₃, hPT₃, hc3⟩ (hNR _ _ hdiag3)
    · -- last edit is a deletion, from diagonal k + 1
      obtain ⟨hx1, hPT₃⟩ := PT_snoc_del_inv hDE hID (ht4 ▸ hPT'')
      have he : countTok tDel ((s₃ ++ [t]) ++ List.replicate j DiffOp.equal)
          = countTok tDel s₃ + 1 := by
        rw [ht4, countTok_append, countTok_append, countTok_replicate,
          if_neg (Ne.symm hDE), countTok_cons_self, countTok_nil]
      rw [he] at hcount
      have hd1 : 1 ≤ d := by omega
      have hc3 : countTok tDel s₃ = d - 1 := by omega
      have hdiag3 : ((x' - j - 1 : Nat) : Int) = ((y' - j : Nat) : Int) - (k + 1) := by
        omega
      rcases hR with ⟨_, hGR⟩ | ⟨_, hcase⟩
      · obtain ⟨yR, sR, hfpR, _, _, _, _, _, hFR⟩ := hGR
        have hle : y' - j ≤ yR := hFR.2 _ _ hdiag3 ⟨s₃, hPT₃, hc3⟩
        have := hy0R yR hfpR
        exact extendLen_absorb (by omega) hguard
      · rcases hcase with hd0 | hNR
        · omega
        · exact absurd ⟨s₃, hPT₃, hc3⟩ (hNR _ _ hdiag3)

end ReachLemmas

section SnakeSpec

variable {cmp : Option α → Option α → Bool} {tIns tDel : DiffOp}
variable {a b : List (Option α)}

theorem drop_one_append {l r : List DiffOp} (h : l ≠ []) :
    (l ++ r).drop 1 = l.drop 1 ++ r := by
  cases l with
  | nil => exact absurd rfl h
  | cons x xs => simp

/-- `snake` only writes diagonal `k`. -/
theorem snake_frame {st : ESState} {k k' : Int} (h : k' ≠ k) :
    (snake cmp a b tIns tDel st k).fp k' = st.fp k' ∧
    (snake cmp a b tIns tDel st k).es k' = st.es k' := by
  constructor <;> simp [snake, h]

theorem snake_fp {st : ESState} {k : Int} :
    (snake cmp a b tIns tDel st k).fp k =
      some ((max (fpRead (st.fp (k - 1)) + 1) (fpRead (st.fp (k + 1)))).toNat +
        extendLen cmp a b k
          (max (fpRead (st.fp (k - 1)) + 1) (fpRead (st.fp (k + 1)))).toNat) := by
  simp [snake]

theorem snake_es_ins {st : ESState} {k : Int}
    (hbr : fpRead (st.fp (k + 1)) < fpRead (st.fp (k - 1)) + 1) :
    (snake cmp a b tIns tDel st k).es k =
      some ((match st.es (k - 1) with
              | some l => l
              | none => match st.es k with | some l => l | none => []) ++ [tIns] ++
        List.replicate (extendLen cmp a b k
          (max (fpRead (st.fp (k - 1)) + 1) (fpRead (st.fp (k + 1)))).toNat)
          DiffOp.equal) := by
  simp only [snake]
  rw [if_pos hbr, if_pos hbr]
  rw [show k + (-1 : Int) = k - 1 by ring]
  simp

theorem snake_es_del {st : ESState} {k : Int}
    (hbr : ¬ fpRead (st.fp (k + 1)) < fpRead (st.fp (k - 1)) + 1) :
    (snake cmp a b tIns tDel st k).es k =
      some ((match st.es (k + 1) with
              | some l => l
              | none => match st.es k with | some l => l | none => []) ++ [tDel] ++
        List.replicate (extendLen cmp a b k
          (max (fpRead (st.fp (k - 1)) + 1) (fpRead (st.fp (k + 1)))).toNat)
          DiffOp.equal) := by
  simp only [snake]
  rw [if_neg hbr, if_neg hbr]
  simp

/-- An exactly-`d`-delete path on diagonal `k` is the empty diagonal case, or
comes through a neighbouring diagonal. -/
theorem reach_decomp (hIE : tIns ≠ DiffOp.equal) (hDE : tDel ≠ DiffOp.equal)
    (hID : tIns ≠ tDel) {k : Int} {d x y : Nat}
    (hdiag : (x : Int) = (y : Int) - k)
    (h : ReachD cmp tIns tDel a b x y d) :
    (k = 0 ∧ d = 0) ∨
    (∃ x' y' : Nat, (x' : Int) = (y' : Int) - (k - 1) ∧
      ReachD cmp tIns tDel a b x' y' d) ∨
    (1 ≤ d ∧ ∃ x' y' : Nat, (x' : Int) = (y' : Int) - (k + 1) ∧
      ReachD cmp tIns tDel a b x' y' (d - 1)) := by
  obtain ⟨s', hPT, hcount⟩ := h
  obtain ⟨s'', j, hsplit, hshape⟩ := exists_strip_eq s'
  subst hsplit
  obtain ⟨hjx, hjy, hPT'', hguard⟩ := PT_eqRun_inv hIE hDE hPT hdiag
  rcases hshape with rfl | ⟨s₃, t, rfl, ht⟩
  · obtain ⟨hx0, hy0'⟩ := PT_nil_inv hPT''
    have hd0 : d = 0 := by
      rw [countTok_append, countTok_nil, countTok_replicate, if_neg (Ne.symm hDE)] at hcount
      omega
    have hk0 : k = 0 := by omega
    exact Or.inl ⟨hk0, hd0⟩
  · have htok : t = tIns ∨ t = tDel := by
      have hmem : t ∈ s₃ ++ [t] := by simp
      rcases runTrace_tokens hPT''.2.2 t hmem with he | h' | h'
      · exact absurd he ht
      · exact Or.inl h'
      · exact Or.inr h'
    rcases htok with ht4 | ht4
    · obtain ⟨hy1, hPT₃⟩ := PT_snoc_ins_inv hIE hID (ht4 ▸ hPT'')
      have hc3 : countTok tDel s₃ = d := by
        rw [countTok_append, countTok_append, countTok_replicate,
          if_neg (Ne.symm hDE), ht4, countTok_cons_ne hID, countTok_nil] at hcount
        omega
      exact Or.inr (Or.inl ⟨x - j, y - j - 1, by omega, s₃, hPT₃, hc3⟩)
    · obtain ⟨hx1, hPT₃⟩ := PT_snoc_del_inv hDE hID (ht4 ▸ hPT'')
      have hcnt : countTok tDel ((s₃ ++ [t]) ++ List.replicate j DiffOp.equal)
          = countTok tDel s₃ + 1 := by
        rw [ht4, countTok_append, countTok_append, countTok_replicate,
          if_neg (Ne.symm hDE), countTok_cons_self, countTok_nil]
      rw [hcnt] at hcount
      refine Or.inr (Or.inr ⟨by omega, x - j - 1, y - j, by omega, s₃, hPT₃, by omega⟩)

theorem fpRead_some {v : Nat} : fpRead (some v) = (v : Int) := rfl

theorem fpRead_none : fpRead none = -1 := rfl

theorem fpRead_ge (o : Option Nat) : -1 ≤ fpRead o := by
  cases o
  · simp [fpRead]
  · rw [fpRead_some]
    omega

/-- The central step lemma: if the neighbour diagonals hold correct furthest
points (for the budgets dictated by Wu's recurrence) then `snake` computes the
furthest point with exactly `d` deletes on diagonal `k`, together with a
correct witness script. -/
theorem snake_spec (hIE : tIns ≠ DiffOp.equal) (hDE : tDel ≠ DiffOp.equal)
    (hID : tIns ≠ tDel) {st : ESState} {k : Int} {d : Nat}
    (hL : GoodDiag cmp tIns tDel a b st (k - 1) d ∨
      (st.fp (k - 1) = none ∧ NoReach cmp tIns tDel a b (k - 1) d))
    (hR : (1 ≤ d ∧ GoodDiag cmp tIns tDel a b st (k + 1) (d - 1)) ∨
      (st.fp (k + 1) = none ∧ (d = 0 ∨ NoReach cmp tIns tDel a b (k + 1) (d - 1))))
    (hLes : st.fp (k - 1) = none → st.es (k - 1) = none)
    (hKes : st.fp (k - 1) = none → st.fp (k + 1) = none → st.es k = none)
    (hLsafe : ∀ yL, st.fp (k - 1) = some yL → yL < b.length)
    (hRsafe : ∀ yR, st.fp (k + 1) = some yR → (yR : Int) - (k + 1) < (a.length : Int))
    (hfeas1 : d ≤ a.length) (hfeas2 : (k : Int) + d ≤ (b.length : Int))
    (hfeas3 : -(d : Int) ≤ k) :
    GoodDiag cmp tIns tDel a b (snake cmp a b tIns tDel st k) k d := by
  by_cases hbr : fpRead (st.fp (k + 1)) < fpRead (st.fp (k - 1)) + 1
  · rcases hL with hGL | ⟨hnoneL, hNRL⟩
    · -- insert branch with a present left neighbour
      obtain ⟨yL, sL, hfpL, hesL, hneL, hnnL, hPTL, hcntL, hFL⟩ := hGL
      have hmax : (max (fpRead (st.fp (k - 1)) + 1) (fpRead (st.fp (k + 1)))).toNat
          = yL + 1 := by
        rw [hfpL] at hbr ⊢
        rw [fpRead_some] at hbr ⊢
        omega
      have hesk := @snake_es_ins α cmp tIns tDel a b st k hbr
      rw [hesL, hmax] at hesk
      simp only [] at hesk
      have hfpk := @snake_fp α cmp tIns tDel a b st k
      rw [hmax] at hfpk
      have hyLn := hLsafe yL hfpL
      have h1 : PT cmp tIns tDel a b (sL.drop 1 ++ [tIns])
          (((yL : Int) - (k - 1)).toNat) (yL + 1) := PT_snoc_ins hIE hPTL hyLn
      have hdg1 : ((((yL : Int) - (k - 1)).toNat : Nat) : Int)
          = (((yL + 1 : Nat)) : Int) - k := by omega
      have h2 := PT_eqRun (k := k) h1 hdg1
      have hdrop : (sL ++ [tIns] ++ List.replicate
            (extendLen cmp a b k (yL + 1)) DiffOp.equal).drop 1
          = sL.drop 1 ++ [tIns] ++ List.replicate
            (extendLen cmp a b k (yL + 1)) DiffOp.equal := by
        rw [drop_one_append (by simp [hneL]), drop_one_append hneL]
      have hcnt2 : countTok tDel (sL.drop 1 ++ [tIns] ++ List.replicate
          (extendLen cmp a b k (yL + 1)) DiffOp.equal) = d := by
        rw [countTok_append, countTok_append, countTok_replicate,
          if_neg (Ne.symm hDE), countTok_cons_ne hID, countTok_nil, hcntL]
        omega
      refine ⟨yL + 1 + extendLen cmp a b k (yL + 1),
        sL ++ [tIns] ++ List.replicate (extendLen cmp a b k (yL + 1)) DiffOp.equal,
        hfpk, hesk, by simp, by omega, ?_, ?_, ?_⟩
      · rw [hdrop]
        rw [show ((((yL + 1 + extendLen cmp a b k (yL + 1) : Nat)) : Int) - k).toNat
          = ((yL : Int) - (k - 1)).toNat + extendLen cmp a b k (yL + 1) by omega]
        exact h2
      · rw [hdrop]
        exact hcnt2
      · constructor
        · exact ⟨((yL : Int) - (k - 1)).toNat + extendLen cmp a b k (yL + 1),
            by omega,
            sL.drop 1 ++ [tIns] ++ List.replicate
              (extendLen cmp a b k (yL + 1)) DiffOp.equal, h2, hcnt2⟩
        · have hy0L : ∀ yL', st.fp (k - 1) = some yL' → yL' + 1 ≤ yL + 1 := by
            intro yL' h'
            rw [hfpL] at h'
            cases h'
            omega
          have hy0R : ∀ yR', st.fp (k + 1) = some yR' → yR' ≤ yL + 1 := by
            intro yR' h'
            rw [h', fpRead_some, hfpL, fpRead_some] at hbr
            omega
          have := @snake_max α cmp tIns tDel a b hIE hDE hID st k d (yL + 1)
            (Or.inl ⟨yL, sL, hfpL, hesL, hneL, hnnL, hPTL, hcntL, hFL⟩) hR hy0L hy0R
          intro x' y' hdg hr
          exact this x' y' hdg hr
    · -- insert branch with no left neighbour: the bootstrap call (k = 0, d = 0)
      have hnoneR : st.fp (k + 1) = none := by
        cases hQR : st.fp (k + 1) with
        | none => rfl
        | some yR =>
          rw [hQR, fpRead_some, hnoneL, fpRead_none] at hbr
          omega
      have hRside : d = 0 ∨ NoReach cmp tIns tDel a b (k + 1) (d - 1) := by
        rcases hR with ⟨_, hGR⟩ | ⟨_, hcase⟩
        · obtain ⟨_, _, hfpR, _⟩ := hGR
          rw [hnoneR] at hfpR
          exact absurd hfpR (by simp)
        · exact hcase
      have hall := @reach_allEdit α cmp tIns tDel a b hIE hDE hID k d
        hfeas1 hfeas2 hfeas3
      have hdall : ((d : Nat) : Int) = (((k + ↑d).toNat : Nat) : Int) - k := by omega
      have hk0d0 : k = 0 ∧ d = 0 := by
        rcases reach_decomp hIE hDE hID hdall hall with h0 | ⟨x', y', hd', hr'⟩ |
            ⟨hd1, x', y', hd', hr'⟩
        · exact h0
        · exact absurd hr' (hNRL _ _ hd')
        · rcases hRside with hd0 | hNR
          · omega
          · exact absurd hr' (hNR _ _ hd')
      obtain ⟨hk0, hd0⟩ := hk0d0
      subst hk0 hd0
      have hmax : (max (fpRead (st.fp ((0 : Int) - 1)) + 1)
          (fpRead (st.fp ((0 : Int) + 1)))).toNat = 0 := by
        rw [hnoneL, hnoneR]
        simp [fpRead]
      have hesk := @snake_es_ins α cmp tIns tDel a b st (0 : Int) hbr
      rw [hLes hnoneL, hKes hnoneL hnoneR, hmax] at hesk
      simp only [] at hesk
      have hfpk := @snake_fp α cmp tIns tDel a b st (0 : Int)
      rw [hmax] at hfpk
      have h2 : PT cmp tIns tDel a b
          ([] ++ List.replicate (extendLen cmp a b 0 0) DiffOp.equal)
          (0 + extendLen cmp a b 0 0) (0 + extendLen cmp a b 0 0) :=
        PT_eqRun (k := (0 : Int)) PT_zero (by omega)
      simp only [List.nil_append, Nat.zero_add] at h2
      have hcnt2 : countTok tDel
          (List.replicate (extendLen cmp a b 0 0) DiffOp.equal) = 0 := by
        rw [countTok_replicate, if_neg (Ne.symm hDE)]
      refine ⟨0 + extendLen cmp a b 0 0,
        [] ++ [tIns] ++ List.replicate (extendLen cmp a b 0 0) DiffOp.equal,
        hfpk, hesk, by simp, by omega, ?_, ?_, ?_⟩
      · simp only [List.nil_append, List.drop_one, List.tail_cons]
        rw [show (((0 + extendLen cmp a b 0 0 : Nat) : Int) - (0 : Int)).toNat
          = extendLen cmp a b 0 0 by omega]
        simpa using h2
      · simp only [List.nil_append, List.drop_one, List.tail_cons]
        exact hcnt2
      · refine ⟨⟨extendLen cmp a b 0 0, by omega,
          List.replicate (extendLen cmp a b 0 0) DiffOp.equal,
          by simpa using h2, hcnt2⟩, ?_⟩
        have := @snake_max α cmp tIns tDel a b hIE hDE hID st (0 : Int) 0 0
          (Or.inr ⟨hnoneL, hNRL⟩) hR
          (by intro yL h; rw [hnoneL] at h; exact absurd h (by simp))
          (by intro yR h; rw [hnoneR] at h; exact absurd h (by simp))
        intro x' y' hdg hr
        have := this x' y' hdg hr
        omega
  · -- delete branch: right neighbour must be present
    have hGR : 1 ≤ d ∧ GoodDiag cmp tIns tDel a b st (k + 1) (d - 1) := by
      rcases hR with h' | ⟨hnoneR, _⟩
      · exact h'
      · rw [hnoneR, fpRead_none] at hbr
        have := fpRead_ge (st.fp (k - 1))
        omega
    obtain ⟨hd1, yR, sR, hfpR, hesR, hneR, hnnR, hPTR, hcntR, hFR⟩ := hGR
    have hmax : (max (fpRead (st.fp (k - 1)) + 1) (fpRead (st.fp (k + 1)))).toNat
        = yR := by
      rw [hfpR] at hbr ⊢
      rw [fpRead_some] at hbr ⊢
      omega
    have hesk := @snake_es_del α cmp tIns tDel a b st k hbr
    rw [hesR, hmax] at hesk
    simp only [] at hesk
    have hfpk := @snake_fp α cmp tIns tDel a b st k
    rw [hmax] at hfpk
    have hxRm : ((yR : Int) - (k + 1)).toNat < a.length := by
      have := hRsafe yR hfpR
      omega
    have h1 : PT cmp tIns tDel a b (sR.drop 1 ++ [tDel])
        ((((yR : Int) - (k + 1)).toNat) + 1) yR := PT_snoc_del hDE hID hPTR hxRm
    have hdg1 : (((((yR : Int) - (k + 1)).toNat + 1 : Nat)) : Int)
        = ((yR : Nat) : Int) - k := by omega
    have h2 := PT_eqRun (k := k) h1 hdg1
    have hdrop : (sR ++ [tDel] ++ List.replicate
          (extendLen cmp a b k yR) DiffOp.equal).drop 1
        = sR.drop 1 ++ [tDel] ++ List.replicate
          (extendLen cmp a b k yR) DiffOp.equal := by
      rw [drop_one_append (by simp [hneR]), drop_one_append hneR]
    have hcnt2 : countTok tDel (sR.drop 1 ++ [tDel] ++ List.replicate
        (extendLen cmp a b k yR) DiffOp.equal) = d := by
      rw [countTok_append, countTok_append, countTok_replicate,
        if_neg (Ne.symm hDE), countTok_cons_self, countTok_nil, hcntR]
      omega
    refine ⟨yR + extendLen cmp a b k yR,
      sR ++ [tDel] ++ List.replicate (extendLen cmp a b k yR) DiffOp.equal,
      hfpk, hesk, by simp, by omega, ?_, ?_, ?_⟩
    · rw [hdrop]
      rw [show ((((yR + extendLen cmp a b k yR : Nat)) : Int) - k).toNat
        = (((yR : Int) - (k + 1)).toNat + 1) + extendLen cmp a b k yR by omega]
      exact h2
    · rw [hdrop]
      exact hcnt2
    · constructor
      · exact ⟨(((yR : Int) - (k + 1)).toNat + 1) + extendLen cmp a b k yR,
          by omega,
          sR.drop 1 ++ [tDel] ++ List.replicate
            (extendLen cmp a b k yR) DiffOp.equal, h2, hcnt2⟩
      · have hy0L : ∀ yL', st.fp (k - 1) = some yL' → yL' + 1 ≤ yR := by
          intro yL' h'
          rw [h', fpRead_some, hfpR, fpRead_some] at hbr
          omega
        have hy0R : ∀ yR', st.fp (k + 1) = some yR' → yR' ≤ yR := by
          intro yR' h'
          rw [hfpR] at h'
          cases h'
          omega
        have := @snake_max α cmp tIns tDel a b hIE hDE hID st k d yR hL
          (Or.inl ⟨hd1, yR, sR, hfpR, hesR, hneR, hnnR, hPTR, hcntR, hFR⟩)
          hy0L hy0R
        intro x' y' hdg hr
        exact this x' y' hdg hr

end SnakeSpec

section RoundSpec

variable {cmp : Option α → Option α → Bool} {tIns tDel : DiffOp}
variable {a b : List (Option α)}

/-- Diagonals below `-d` are unreachable with `d` deletes. -/
theorem noReach_low (hIE : tIns ≠ DiffOp.equal) (hDE : tDel ≠ DiffOp.equal)
    (hID : tIns ≠ tDel) {k : Int} {d : Nat} (h : (k : Int) + d < 0) :
    NoReach cmp tIns tDel a b k d := by
  intro x y hdiag ⟨s, hPT, hcnt⟩
  obtain ⟨h1, h2⟩ := PT_counts hIE hDE hID hPT
  omega

/-- Extending a path by a pure delete run. -/
theorem PT_del_ext (hDE : tDel ≠ DiffOp.equal) (hID : tIns ≠ tDel)
    {s : List DiffOp} {x y i : Nat}
    (h : PT cmp tIns tDel a b s x y) (hi : x + i ≤ a.length) :
    PT cmp tIns tDel a b (s ++ List.replicate i tDel) (x + i) y := by
  induction i with
  | zero => simpa using h
  | succ i ih =>
    rw [List.replicate_succ']
    rw [show s ++ (List.replicate i tDel ++ [tDel]) = (s ++ List.replicate i tDel) ++ [tDel]
      by simp]
    have := PT_snoc_del hDE hID (ih (by omega)) (by omega)
    rw [show x + i + 1 = x + (i + 1) by omega] at this
    exact this

/-- If `(m, n)` is reachable with exactly `q` deletes then the loop would have
stopped at stage `q`; the running loop implies no such `q < p` exists. These
two lemmas propagate that fact into safety bounds for `snake`'s start points. -/
theorem good_fp_lt_n {delta : Nat} (hmn : a.length + delta = b.length)
    {st : ESState} {j : Int} {d' y : Nat}
    (hj : j < (delta : Int))
    (hG : GoodDiag cmp tIns tDel a b st j d') (hfp : st.fp j = some y) :
    y < b.length := by
  obtain ⟨y', s', hfp', _, _, hnn, hPT, _, _⟩ := hG
  rw [hfp'] at hfp
  cases hfp
  have hx := hPT.1
  omega

theorem good_fp_lt_n_high (hIE : tIns ≠ DiffOp.equal) (hDE : tDel ≠ DiffOp.equal)
    (hID : tIns ≠ tDel) {delta p : Nat} (hmn : a.length + delta = b.length)
    {st : ESState} {j : Int} {d' y : Nat}
    (hj : (delta : Int) ≤ j)
    (hG : GoodDiag cmp tIns tDel a b st j d') (hfp : st.fp j = some y)
    (hq : d' + (j - (delta : Int)).toNat < p)
    (hcont : ∀ q, q < p → ¬ ReachD cmp tIns tDel a b a.length b.length q) :
    y < b.length := by
  obtain ⟨y', s', hfp', _, _, hnn, hPT, hcnt, _⟩ := hG
  rw [hfp'] at hfp
  cases hfp
  have hyn := hPT.2.1
  by_cases hlt : y < b.length
  · exact hlt
  · exfalso
    have hyn' : y = b.length := by omega
    subst hyn'
    have hxm : (((b.length : Int) - j).toNat) + (j - (delta : Int)).toNat ≤ a.length := by
      omega
    have hext := PT_del_ext hDE hID hPT hxm
    have hcount : countTok tDel (s'.drop 1 ++
        List.replicate (j - (delta : Int)).toNat tDel)
        = d' + (j - (delta : Int)).toNat := by
      rw [countTok_append, countTok_replicate, if_pos rfl, hcnt]
    refine hcont (d' + (j - (delta : Int)).toNat) hq ⟨_, ?_, hcount⟩
    have hxeq : (((b.length : Int) - j).toNat) + (j - (delta : Int)).toNat
        = a.length := by omega
    rw [hxeq] at hext
    exact hext

theorem good_x_lt_m_high {delta : Nat} (hmn : a.length + delta = b.length)
    {st : ESState} {j : Int} {d' y : Nat}
    (hj : (delta : Int) < j)
    (hG : GoodDiag cmp tIns tDel a b st j d') (hfp : st.fp j = some y) :
    (y : Int) - j < (a.length : Int) := by
  obtain ⟨y', s', hfp', _, _, hnn, hPT, _, _⟩ := hG
  rw [hfp'] at hfp
  cases hfp
  have hyn := hPT.2.1
  omega

theorem good_x_lt_m_cont (hIE : tIns ≠ DiffOp.equal) (hDE : tDel ≠ DiffOp.equal)
    (hID : tIns ≠ tDel) {delta p : Nat} (hmn : a.length + delta = b.length)
    {st : ESState} {j : Int} {d' y : Nat}
    (hj : j ≤ (delta : Int))
    (hG : GoodDiag cmp tIns tDel a b st j d') (hfp : st.fp j = some y)
    (hq : d' < p)
    (hcont : ∀ q, q < p → ¬ ReachD cmp tIns tDel a b a.length b.length q) :
    (y : Int) - j < (a.length : Int) := by
  obtain ⟨y', s', hfp', _, _, hnn, hPT, hcnt, _⟩ := hG
  rw [hfp'] at hfp
  cases hfp
  have hxm := hPT.1
  have hyn := hPT.2.1
  by_cases hlt : (y : Int) - j < (a.length : Int)
  · exact hlt
  · exfalso
    have hxem : ((y : Int) - j).toNat = a.length := by omega
    have hyi : y + (b.length - y) ≤ b.length := by omega
    have hext := PT_ins_run hIE hPT hyi
    have hcount : countTok tDel (s'.drop 1 ++
        List.replicate (b.length - y) tIns) = d' := by
      rw [countTok_append, countTok_replicate, if_neg hID, hcnt]
      omega
    refine hcont d' hq ⟨_, ?_, hcount⟩
    rw [hxem, show y + (b.length - y) = b.length by omega] at hext
    exact hext

/-- One `snake` call preserves the whole-state invariant, extending the domain
map at the visited diagonal. -/
theorem snake_step_inv (hIE : tIns ≠ DiffOp.equal) (hDE : tDel ≠ DiffOp.equal)
    (hID : tIns ≠ tDel) {st : ESState} {dom : Int → Option Nat} {k0 : Int} {d0 : Nat}
    (hInv : InvMap cmp tIns tDel a b st dom)
    (hL' : dom (k0 - 1) = some d0 ∨
      (dom (k0 - 1) = none ∧ NoReach cmp tIns tDel a b (k0 - 1) d0))
    (hR' : (1 ≤ d0 ∧ dom (k0 + 1) = some (d0 - 1)) ∨ (dom (k0 + 1) = none ∧ d0 = 0))
    (hK' : dom (k0 - 1) = none → dom (k0 + 1) = none → dom k0 = none)
    (hLsafe : ∀ yL, st.fp (k0 - 1) = some yL → yL < b.length)
    (hRsafe : ∀ yR, st.fp (k0 + 1) = some yR → (yR : Int) - (k0 + 1) < (a.length : Int))
    (hfeas1 : d0 ≤ a.length) (hfeas2 : (k0 : Int) + d0 ≤ (b.length : Int))
    (hfeas3 : -(d0 : Int) ≤ k0) :
    InvMap cmp tIns tDel a b (snake cmp a b tIns tDel st k0)
      (fun k => if k = k0 then some d0 else dom k) := by
  have hGood : GoodDiag cmp tIns tDel a b (snake cmp a b tIns tDel st k0) k0 d0 := by
    refine snake_spec hIE hDE hID ?_ ?_ ?_ ?_ hLsafe hRsafe hfeas1 hfeas2 hfeas3
    · rcases hL' with h' | ⟨h', hNR⟩
      · exact Or.inl ((hInv (k0 - 1)).1 d0 h')
      · exact Or.inr ⟨((hInv (k0 - 1)).2 h').1, hNR⟩
    · rcases hR' with ⟨h1, h'⟩ | ⟨h', h0⟩
      · exact Or.inl ⟨h1, (hInv (k0 + 1)).1 (d0 - 1) h'⟩
      · exact Or.inr ⟨((hInv (k0 + 1)).2 h').1, Or.inl h0⟩
    · intro h
      rcases hL' with h' | ⟨h', _⟩
      · obtain ⟨y', s', hfp', _⟩ := (hInv (k0 - 1)).1 d0 h'
        rw [h] at hfp'
        exact absurd hfp' (by simp)
      · exact ((hInv (k0 - 1)).2 h').2
    · intro h1 h2
      have hdomL : dom (k0 - 1) = none := by
        rcases hL' with h' | ⟨h', _⟩
        · obtain ⟨y', s', hfp', _⟩ := (hInv (k0 - 1)).1 d0 h'
          rw [h1] at hfp'
          exact absurd hfp' (by simp)
        · exact h'
      have hdomR : dom (k0 + 1) = none := by
        rcases hR' with ⟨_, h'⟩ | ⟨h', _⟩
        · obtain ⟨y', s', hfp', _⟩ := (hInv (k0 + 1)).1 (d0 - 1) h'
          rw [h2] at hfp'
          exact absurd hfp' (by simp)
        · exact h'
      exact ((hInv k0).2 (hK' hdomL hdomR)).2
  intro k
  by_cases hk : k = k0
  · subst hk
    constructor
    · intro d hd
      simp only [if_pos rfl] at hd
      cases hd
      exact hGood
    · intro hd
      simp only [if_pos rfl] at hd
      cases hd
  · obtain ⟨hfp, hes⟩ := @snake_frame α cmp tIns tDel a b st _ _ hk
    constructor
    · intro d hd
      simp only [if_neg hk] at hd
      obtain ⟨y', s', h1, h2, h3, h4, h5, h6, h7⟩ := (hInv k).1 d hd
      exact ⟨y', s', by rw [hfp]; exact h1, by rw [hes]; exact h2, h3, h4, h5, h6, h7⟩
    · intro hd
      simp only [if_neg hk] at hd
      obtain ⟨h1, h2⟩ := (hInv k).2 hd
      exact ⟨by rw [hfp]; exact h1, by rw [hes]; exact h2⟩

end RoundSpec

section PhaseLemmas

variable {cmp : Option α → Option α → Bool} {tIns tDel : DiffOp}
variable {a b : List (Option α)}

theorem InvMap_congr {st : ESState} {dom dom' : Int → Option Nat}
    (h : InvMap cmp tIns tDel a b st dom) (he : ∀ k, dom' k = dom k) :
    InvMap cmp tIns tDel a b st dom' := by
  intro k
  rw [he k]
  exact h k

theorem ascend_inv (hIE : tIns ≠ DiffOp.equal) (hDE : tDel ≠ DiffOp.equal)
    (hID : tIns ≠ tDel) {delta p : Nat} (hmn : a.length + delta = b.length)
    (hcont : ∀ q, q < p → ¬ ReachD cmp tIns tDel a b a.length b.length q)
    (hpm : p ≤ a.length)
    {st : ESState} (hInv : InvMap cmp tIns tDel a b st (PrevDom delta p)) :
    ∀ c, c ≤ delta + p →
      InvMap cmp tIns tDel a b
        (((List.range c).map (fun i : Nat => (i : Int) - (p : Int))).foldl
          (fun s k => snake cmp a b tIns tDel s k) st)
        (AscDom delta p c) := by
  intro c
  induction c with
  | zero =>
    intro _
    refine InvMap_congr hInv ?_
    intro k
    unfold AscDom
    rw [if_neg (by omega)]
  | succ c ih =>
    intro hc
    have hInvc := ih (by omega)
    rw [List.range_succ, List.map_append, List.foldl_append]
    simp only [List.map_cons, List.map_nil, List.foldl_cons, List.foldl_nil]
    have hstep := @snake_step_inv α cmp tIns tDel a b hIE hDE hID _ _
      ((c : Int) - (p : Int)) p
      hInvc ?_ ?_ ?_ ?_ ?_ hpm (by omega) (by omega)
    · refine InvMap_congr hstep ?_
      intro k
      unfold AscDom PrevDom
      by_cases hk : k = (c : Int) - (p : Int)
      · rw [if_pos hk, if_pos (by omega)]
      · rw [if_neg hk]
        by_cases h1 : -(p : Int) ≤ k ∧ k < -(p : Int) + ((c : Nat) + 1 : Nat)
        · have hc2 : -(p : Int) ≤ k ∧ k < -(p : Int) + (c : Nat) := by omega
          rw [if_pos h1, if_pos hc2]
        · have hc2 : ¬(-(p : Int) ≤ k ∧ k < -(p : Int) + (c : Nat)) := by omega
          rw [if_neg h1, if_neg hc2]
    · -- left neighbour
      by_cases hc0 : c = 0
      · subst hc0
        refine Or.inr ⟨?_, noReach_low hIE hDE hID (by omega)⟩
        unfold AscDom PrevDom
        rw [if_neg (by omega), if_neg (by omega)]
      · refine Or.inl ?_
        unfold AscDom
        rw [if_pos (by omega)]
    · -- right neighbour
      by_cases hp0 : p = 0
      · subst hp0
        refine Or.inr ⟨?_, rfl⟩
        unfold AscDom PrevDom
        rw [if_neg (by omega), if_neg (by omega)]
      · refine Or.inl ⟨by omega, ?_⟩
        unfold AscDom PrevDom
        rw [if_neg (by omega), if_pos (by omega)]
        unfold Dof
        rw [if_pos (by omega)]
    · -- hK'
      intro h1 h2
      by_cases hc0 : c = 0
      · subst hc0
        by_cases hp0 : p = 0
        · subst hp0
          unfold AscDom PrevDom
          rw [if_neg (by omega), if_neg (by omega)]
        · exfalso
          unfold AscDom PrevDom at h2
          rw [if_neg (by omega), if_pos (by omega)] at h2
          exact absurd h2 (by simp)
      · exfalso
        unfold AscDom at h1
        rw [if_pos (by omega)] at h1
        exact absurd h1 (by simp)
    · -- hLsafe
      intro yL hfpL
      by_cases hc0 : c = 0
      · exfalso
        have hnone : AscDom delta p c ((c : Int) - (p : Int) - 1) = none := by
          unfold AscDom PrevDom
          rw [if_neg (by omega), if_neg (by omega)]
        have := (hInvc ((c : Int) - (p : Int) - 1)).2 hnone
        rw [this.1] at hfpL
        exact absurd hfpL (by simp)
      · have hdom : AscDom delta p c ((c : Int) - (p : Int) - 1) = some p := by
          unfold AscDom
          rw [if_pos (by omega)]
        have hG := (hInvc ((c : Int) - (p : Int) - 1)).1 p hdom
        exact good_fp_lt_n hmn (by omega) hG hfpL
    · -- hRsafe
      intro yR hfpR
      by_cases hp0 : p = 0
      · exfalso
        have hnone : AscDom delta p c ((c : Int) - (p : Int) + 1) = none := by
          unfold AscDom PrevDom
          rw [if_neg (by omega), if_neg (by omega)]
        have := (hInvc ((c : Int) - (p : Int) + 1)).2 hnone
        rw [this.1] at hfpR
        exact absurd hfpR (by simp)
      · have hdom : AscDom delta p c ((c : Int) - (p : Int) + 1) = some (p - 1) := by
          unfold AscDom PrevDom
          rw [if_neg (by omega), if_pos (by omega)]
          unfold Dof
          rw [if_pos (by omega)]
        have hG := (hInvc ((c : Int) - (p : Int) + 1)).1 (p - 1) hdom
        exact good_x_lt_m_cont hIE hDE hID hmn (by omega) hG hfpR (by omega) hcont

theorem descend_inv (hIE : tIns ≠ DiffOp.equal) (hDE : tDel ≠ DiffOp.equal)
    (hID : tIns ≠ tDel) {delta p : Nat} (hmn : a.length + delta = b.length)
    (hcont : ∀ q, q < p → ¬ ReachD cmp tIns tDel a b a.length b.length q)
    (hpm : p ≤ a.length)
    {st : ESState} (hInv : InvMap cmp tIns tDel a b st (AscDom delta p (delta + p))) :
    ∀ c, c ≤ p →
      InvMap cmp tIns tDel a b
        (((List.range c).map
            (fun i : Nat => (delta : Int) + (p : Int) - (i : Int))).foldl
          (fun s k => snake cmp a b tIns tDel s k) st)
        (DescDom delta p c) := by
  intro c
  induction c with
  | zero =>
    intro _
    refine InvMap_congr hInv ?_
    intro k
    unfold DescDom
    rw [if_neg (by omega)]
  | succ c ih =>
    intro hc
    have hInvc := ih (by omega)
    rw [List.range_succ, List.map_append, List.foldl_append]
    simp only [List.map_cons, List.map_nil, List.foldl_cons, List.foldl_nil]
    have hdomL : DescDom delta p c ((delta : Int) + (p : Int) - (c : Int) - 1)
        = some c := by
      unfold DescDom AscDom PrevDom
      rw [if_neg (by omega), if_neg (by omega), if_pos (by omega)]
      have : Dof delta (p - 1) ((delta : Int) + (p : Int) - (c : Int) - 1) = c := by
        unfold Dof
        split_ifs <;> omega
      rw [this]
    have hstep := @snake_step_inv α cmp tIns tDel a b hIE hDE hID _ _
      ((delta : Int) + (p : Int) - (c : Int)) c
      hInvc ?_ ?_ ?_ ?_ ?_ (by omega) (by omega) (by omega)
    · refine InvMap_congr hstep ?_
      intro k
      by_cases hk : k = (delta : Int) + (p : Int) - (c : Int)
      · rw [if_pos hk]
        unfold DescDom
        rw [if_pos (by omega)]
        congr 1
        omega
      · rw [if_neg hk]
        unfold DescDom
        by_cases h1 : (delta : Int) + (p : Int) - ((c : Nat) + 1 : Nat) < k ∧
            k ≤ (delta : Int) + (p : Int)
        · have hc2 : (delta : Int) + (p : Int) - (c : Nat) < k ∧
              k ≤ (delta : Int) + (p : Int) := by omega
          rw [if_pos h1, if_pos hc2]
        · have hc2 : ¬((delta : Int) + (p : Int) - (c : Nat) < k ∧
              k ≤ (delta : Int) + (p : Int)) := by omega
          rw [if_neg h1, if_neg hc2]
    · -- left neighbour: always present from the previous stage, with budget c
      rw [show (delta : Int) + (p : Int) - (c : Int) - 1
        = (delta : Int) + (p : Int) - (c : Int) - 1 from rfl]
      exact Or.inl hdomL
    · -- right neighbour
      by_cases hc0 : c = 0
      · subst hc0
        refine Or.inr ⟨?_, rfl⟩
        unfold DescDom AscDom PrevDom
        rw [if_neg (by omega), if_neg (by omega), if_neg (by omega)]
      · refine Or.inl ⟨by omega, ?_⟩
        unfold DescDom
        rw [if_pos (by omega)]
        congr 1
        omega
    · -- hK'
      intro h1 _
      rw [hdomL] at h1
      exact absurd h1 (by simp)
    · -- hLsafe
      intro yL hfpL
      have hG := (hInvc ((delta : Int) + (p : Int) - (c : Int) - 1)).1 c hdomL
      exact good_fp_lt_n_high hIE hDE hID hmn (by omega) hG hfpL (by omega) hcont
    · -- hRsafe
      intro yR hfpR
      by_cases hc0 : c = 0
      · exfalso
        have hnone : DescDom delta p c ((delta : Int) + (p : Int) - (c : Int) + 1)
            = none := by
          subst hc0
          unfold DescDom AscDom PrevDom
          rw [if_neg (by omega), if_neg (by omega), if_neg (by omega)]
        have := (hInvc ((delta : Int) + (p : Int) - (c : Int) + 1)).2 hnone
        rw [this.1] at hfpR
        exact absurd hfpR (by simp)
      · have hdomR : DescDom delta p c ((delta : Int) + (p : Int) - (c : Int) + 1)
            = some (c - 1) := by
          unfold DescDom
          rw [if_pos (by omega)]
          congr 1
          omega
        have hG := (hInvc ((delta : Int) + (p : Int) - (c : Int) + 1)).1 (c - 1) hdomR
        exact good_x_lt_m_high hmn (by omega) hG hfpR

/-- One full iteration of the do-while loop establishes the stage invariant. -/
theorem round_inv (hIE : tIns ≠ DiffOp.equal) (hDE : tDel ≠ DiffOp.equal)
    (hID : tIns ≠ tDel) {delta p : Nat} (hmn : a.length + delta = b.length)
    (hcont : ∀ q, q < p → ¬ ReachD cmp tIns tDel a b a.length b.length q)
    (hpm : p ≤ a.length)
    {st : ESState} (hInv : InvMap cmp tIns tDel a b st (PrevDom delta p)) :
    InvMap cmp tIns tDel a b (diffRound cmp a b tIns tDel delta p st)
      (StageDom delta p) := by
  unfold diffRound roundKs
  rw [List.foldl_append, List.foldl_append]
  simp only [List.foldl_cons, List.foldl_nil]
  have hasc := ascend_inv hIE hDE hID hmn hcont hpm hInv (delta + p) (by omega)
  have hdesc := descend_inv hIE hDE hID hmn hcont hpm hasc p (by omega)
  have hstep := @snake_step_inv α cmp tIns tDel a b hIE hDE hID _ _
    (delta : Int) p
    hdesc ?_ ?_ ?_ ?_ ?_ hpm (by omega) (by omega)
  · refine InvMap_congr hstep ?_
    intro k
    by_cases hk : k = (delta : Int)
    · rw [if_pos hk]
      unfold StageDom Dof
      rw [if_pos (by omega), if_pos (by omega)]
    · rw [if_neg hk]
      unfold StageDom DescDom AscDom PrevDom Dof
      split_ifs <;> first | rfl | omega
  · -- left neighbour: diagonal delta - 1 with budget p
    by_cases h0 : delta = 0 ∧ p = 0
    · obtain ⟨hd0, hp0⟩ := h0
      subst hd0 hp0
      refine Or.inr ⟨?_, noReach_low hIE hDE hID (by omega)⟩
      unfold DescDom AscDom PrevDom
      rw [if_neg (by omega), if_neg (by omega), if_neg (by omega)]
    · refine Or.inl ?_
      unfold DescDom AscDom
      rw [if_neg (by omega), if_pos (by omega)]
  · -- right neighbour: diagonal delta + 1 with budget p - 1
    by_cases hp0 : p = 0
    · subst hp0
      refine Or.inr ⟨?_, rfl⟩
      unfold DescDom AscDom PrevDom
      rw [if_neg (by omega), if_neg (by omega), if_neg (by omega)]
    · refine Or.inl ⟨by omega, ?_⟩
      unfold DescDom
      rw [if_pos (by omega)]
      congr 1
      omega
  · -- hK'
    intro h1 h2
    by_cases h0 : delta = 0 ∧ p = 0
    · obtain ⟨hd0, hp0⟩ := h0
      subst hd0 hp0
      unfold DescDom AscDom PrevDom
      rw [if_neg (by omega), if_neg (by omega), if_neg (by omega)]
    · exfalso
      by_cases hp0 : p = 0
      · have hdne : delta ≠ 0 := by
          intro hd0
          exact h0 ⟨hd0, hp0⟩
        unfold DescDom AscDom at h1
        rw [if_neg (by omega), if_pos (by omega)] at h1
        exact absurd h1 (by simp)
      · unfold DescDom at h2
        rw [if_pos (by omega)] at h2
        exact absurd h2 (by simp)
  · -- hLsafe: diagonal delta - 1 sits strictly below delta
    intro yL hfpL
    rcases hdom : DescDom delta p p ((delta : Int) - 1) with _ | d'
    · exfalso
      have := (hdesc ((delta : Int) - 1)).2 hdom
      rw [this.1] at hfpL
      exact absurd hfpL (by simp)
    · have hG := (hdesc ((delta : Int) - 1)).1 d' hdom
      exact good_fp_lt_n hmn (by omega) hG hfpL
  · -- hRsafe: diagonal delta + 1 sits strictly above delta
    intro yR hfpR
    rcases hdom : DescDom delta p p ((delta : Int) + 1) with _ | d'
    · exfalso
      have := (hdesc ((delta : Int) + 1)).2 hdom
      rw [this.1] at hfpR
      exact absurd hfpR (by simp)
    · have hG := (hdesc ((delta : Int) + 1)).1 d' hdom
      exact good_x_lt_m_high hmn (by omega) hG hfpR

theorem initial_InvMap {delta : Nat} :
    InvMap cmp tIns tDel a b ⟨fun _ => none, fun _ => none⟩ (PrevDom delta 0) := by
  intro k
  constructor
  · intro d hd
    unfold PrevDom at hd
    rw [if_neg (by omega)] at hd
    exact absurd hd (by simp)
  · intro _
    exact ⟨rfl, rfl⟩

theorem prevDom_succ {delta p : Nat} :
    ∀ k, PrevDom delta (p + 1) k = StageDom delta p k := by
  intro k
  unfold PrevDom StageDom
  split_ifs with h1 h2
  · rw [Nat.add_sub_cancel]
  · exfalso; omega
  · exfalso; omega
  · rfl

/-- After a completed stage `p`, the loop's exit test holds exactly when `(m,n)`
is reachable with exactly `p` deletes. -/
theorem stage_exit_iff (hIE : tIns ≠ DiffOp.equal) (hDE : tDel ≠ DiffOp.equal)
    (hID : tIns ≠ tDel) {delta p : Nat} (hmn : a.length + delta = b.length)
    {st : ESState} (hInv : InvMap cmp tIns tDel a b st (StageDom delta p)) :
    st.fp (delta : Int) = some b.length ↔
      ReachD cmp tIns tDel a b a.length b.length p := by
  have hdom : StageDom delta p (delta : Int) = some p := by
    unfold StageDom Dof
    rw [if_pos (by omega), if_pos (by omega)]
  have hG := (hInv (delta : Int)).1 p hdom
  obtain ⟨y, s, hfp, hes, hne, hnn, hPT, hcnt, hFur⟩ := hG
  constructor
  · intro hx
    rw [hfp] at hx
    cases hx
    refine ⟨s.drop 1, ?_, hcnt⟩
    rw [show (((b.length : Nat) : Int) - (delta : Int)).toNat = a.length by omega] at hPT
    exact hPT
  · intro hr
    have hy : b.length ≤ y :=
      hFur.2 a.length b.length (by omega) hr
    have hyn := hPT.2.1
    rw [hfp]
    congr 1
    omega

/-- The do-while loop, run with sufficient fuel from a state satisfying the
pre-stage invariant, terminates at the first stage whose exact-delete budget
reaches `(m, n)`. -/
theorem diffLoop_spec (hIE : tIns ≠ DiffOp.equal) (hDE : tDel ≠ DiffOp.equal)
    (hID : tIns ≠ tDel) {delta : Nat} (hmn : a.length + delta = b.length) :
    ∀ fuel p st,
      InvMap cmp tIns tDel a b st (PrevDom delta p) →
      (∀ q, q < p → ¬ ReachD cmp tIns tDel a b a.length b.length q) →
      (∃ q, p ≤ q ∧ q < p + fuel ∧ ReachD cmp tIns tDel a b a.length b.length q) →
      ∃ st' p', diffLoop cmp a b tIns tDel delta b.length fuel p st = some st' ∧
        InvMap cmp tIns tDel a b st' (StageDom delta p') ∧
        ReachD cmp tIns tDel a b a.length b.length p' ∧
        (∀ q, q < p' → ¬ ReachD cmp tIns tDel a b a.length b.length q) := by
  intro fuel
  induction fuel with
  | zero =>
    intro p st _ _ hex
    obtain ⟨q, h1, h2, _⟩ := hex
    omega
  | succ fuel ih =>
    intro p st hInv hcont hex
    have hpm : p ≤ a.length := by
      by_contra hgt
      have hall := @reach_allEdit α cmp tIns tDel a b hIE hDE hID
        (delta : Int) a.length (by omega) (by omega) (by omega)
      rw [show ((delta : Int) + (a.length : Nat)).toNat = b.length by omega] at hall
      exact hcont a.length (by omega) hall
    have hround := round_inv hIE hDE hID hmn hcont hpm hInv
    have hstep_eq : diffLoop cmp a b tIns tDel delta b.length (fuel + 1) p st =
        if (diffRound cmp a b tIns tDel delta p st).fp (delta : Int)
            = some b.length then
          some (diffRound cmp a b tIns tDel delta p st)
        else
          diffLoop cmp a b tIns tDel delta b.length fuel (p + 1)
            (diffRound cmp a b tIns tDel delta p st) := rfl
    by_cases hexit : (diffRound cmp a b tIns tDel delta p st).fp (delta : Int)
        = some b.length
    · rw [hstep_eq, if_pos hexit]
      exact ⟨_, p, rfl, hround,
        (stage_exit_iff hIE hDE hID hmn hround).mp hexit, hcont⟩
    · rw [hstep_eq, if_neg hexit]
      have hnreach : ¬ ReachD cmp tIns tDel a b a.length b.length p := fun hr =>
        hexit ((stage_exit_iff hIE hDE hID hmn hround).mpr hr)
      refine ih (p + 1) _ (InvMap_congr hround prevDom_succ) ?_ ?_
      · intro q hq
        by_cases hqp : q = p
        · subst hqp
          exact hnreach
        · exact hcont q (by omega)
      · obtain ⟨q, h1, h2, h3⟩ := hex
        have hqp : q ≠ p := fun hh => hnreach (hh ▸ h3)
        exact ⟨q, by omega, by omega, h3⟩

/-- Reading a run with swapped roles: exchanging the two token labels and the
two sequences (and flipping the comparator) preserves validity. -/
theorem runTrace_swap (hID : tIns ≠ tDel) {s : List DiffOp} :
    ∀ {A B : List (Option α)},
      runTrace cmp tIns tDel s A B =
        runTrace (fun u v => cmp v u) tDel tIns s B A := by
  induction s with
  | nil =>
    intro A B
    rw [runTrace, runTrace, Bool.and_comm]
  | cons t s ih =>
    intro A B
    rw [runTrace_cons, runTrace_cons]
    by_cases h1 : t = DiffOp.equal
    · rw [if_pos h1, if_pos h1]
      match A, B with
      | [], [] => rfl
      | [], _ :: _ => rfl
      | _ :: _, [] => rfl
      | x :: A', y :: B' =>
        dsimp only
        rw [ih]
    · rw [if_neg h1, if_neg h1]
      by_cases h2 : t = tIns
      · rw [if_pos h2, if_neg (show ¬t = tDel by rw [h2]; exact hID), if_pos h2]
        match B with
        | [] => rfl
        | _ :: B' =>
          dsimp only
          rw [ih]
      · rw [if_neg h2]
        by_cases h3 : t = tDel
        · rw [if_pos h3, if_pos h3]
          match A with
          | [] => rfl
          | _ :: A' =>
            dsimp only
            rw [ih]
        · rw [if_neg h3, if_neg h3, if_neg h2]

theorem length_eq_countToks (hIE : tIns ≠ DiffOp.equal) (hDE : tDel ≠ DiffOp.equal)
    (hID : tIns ≠ tDel) {s : List DiffOp}
    (h : ∀ t ∈ s, t = DiffOp.equal ∨ t = tIns ∨ t = tDel) :
    s.length = countTok DiffOp.equal s + countTok tIns s + countTok tDel s := by
  induction s with
  | nil => simp [countTok]
  | cons t s ih =>
    have ht := h t (by simp)
    have hs : ∀ t' ∈ s, t' = DiffOp.equal ∨ t' = tIns ∨ t' = tDel := by
      intro t' ht'
      exact h t' (by simp [ht'])
    simp only [List.length_cons, countTok_cons]
    have := ih hs
    rcases ht with rfl | rfl | rfl
    · rw [if_pos rfl, if_neg (fun hh => hIE hh.symm), if_neg (fun hh => hDE hh.symm)]
      omega
    · rw [if_neg hIE, if_pos rfl, if_neg hID]
      omega
    · rw [if_neg hDE, if_neg (fun hh => hID hh.symm), if_pos rfl]
      omega

/-- Running the search loop itself from the initial state: it returns, and
`es[delta]` (after the bootstrap token) is a valid minimal path to `(m, n)`. -/
theorem engine_spec (hIE : tIns ≠ DiffOp.equal) (hDE : tDel ≠ DiffOp.equal)
    (hID : tIns ≠ tDel) {A' B' : List (Option α)} (hab : A'.length ≤ B'.length) :
    ∃ st' p' sf,
      diffLoop cmp A' B' tIns tDel (B'.length - A'.length) B'.length
        (B'.length + 1) 0 ⟨fun _ => none, fun _ => none⟩ = some st' ∧
      st'.es ((B'.length - A'.length : Nat) : Int) = some sf ∧ sf ≠ [] ∧
      PT cmp tIns tDel A' B' (sf.drop 1) A'.length B'.length ∧
      countTok tDel (sf.drop 1) = p' ∧
      (∀ q, q < p' → ¬ ReachD cmp tIns tDel A' B' A'.length B'.length q) := by
  have hmn : A'.length + (B'.length - A'.length) = B'.length := by omega
  have hall := @reach_allEdit α cmp tIns tDel A' B' hIE hDE hID
    ((B'.length - A'.length : Nat) : Int) A'.length
    (by omega) (by omega) (by omega)
  rw [show (((B'.length - A'.length : Nat) : Int) + (A'.length : Nat)).toNat
    = B'.length by omega] at hall
  obtain ⟨st', p', hrun, hInv, hreach, hmin⟩ :=
    diffLoop_spec hIE hDE hID hmn (B'.length + 1) 0 ⟨fun _ => none, fun _ => none⟩
      initial_InvMap (by omega) ⟨A'.length, by omega, by omega, hall⟩
  have hfpn := (stage_exit_iff hIE hDE hID hmn hInv).mpr hreach
  have hdom : StageDom (B'.length - A'.length) p'
      ((B'.length - A'.length : Nat) : Int) = some p' := by
    unfold StageDom Dof
    rw [if_pos (by omega), if_pos (by omega)]
  obtain ⟨y, sf, hfp, hes, hne, hnn, hPT, hcnt, hFur⟩ :=
    (hInv ((B'.length - A'.length : Nat) : Int)).1 p' hdom
  rw [hfp] at hfpn
  cases hfpn
  refine ⟨st', p', sf, hrun, hes, hne, ?_, hcnt, hmin⟩
  rw [show (((B'.length : Nat) : Int)
    - ((B'.length - A'.length : Nat) : Int)).toNat = A'.length by omega] at hPT
  exact hPT

/-- `sesDiff` always returns, its stream is a valid edit path from `A` to `B`
(insert tokens consume `B`, delete tokens consume `A`, equal tokens match under
the comparator), and the stream is as short as any valid stream. -/
theorem sesDiff_ok {cmp : Option α → Option α → Bool}
    (hsymm : ∀ u v, cmp u v = cmp v u) (A B : List (Option α)) :
    ∃ s, sesDiff cmp A B = some s ∧
      runTrace cmp DiffOp.insert DiffOp.delete s A B = true ∧
      (∀ s', runTrace cmp DiffOp.insert DiffOp.delete s' A B = true →
        s.length ≤ s'.length) := by
  have hflip : (fun u v => cmp v u) = cmp := by
    funext u v
    exact hsymm v u
  by_cases hswap : B.length < A.length
  · -- swapped run: a = B, b = A, insert label = delete, delete label = insert
    obtain ⟨st', p', sf, hrun, hes, hne, hPT, hcnt, hmin⟩ :=
      @engine_spec α cmp DiffOp.delete DiffOp.insert
        (by simp) (by simp) (by simp) B A (by omega)
    refine ⟨sf.drop 1, ?_, ?_, ?_⟩
    · unfold sesDiff
      simp only [if_pos hswap]
      rw [hrun]
      simp only [hes]
    · have hr : runTrace cmp DiffOp.delete DiffOp.insert (sf.drop 1) B A = true := by
        have := hPT.2.2
        rwa [List.take_length, List.take_length] at this
      rw [runTrace_swap (by simp)] at hr
      rwa [hflip] at hr
    · intro s' hs'
      have hr' : runTrace cmp DiffOp.delete DiffOp.insert s' B A = true := by
        rw [runTrace_swap (by simp), hflip]
        exact hs'
      have hPT' : PT cmp DiffOp.delete DiffOp.insert B A s' B.length A.length :=
        ⟨le_refl _, le_refl _, by rwa [List.take_length, List.take_length]⟩
      have hge : p' ≤ countTok DiffOp.insert s' := by
        by_contra hlt
        exact hmin (countTok DiffOp.insert s') (by omega) ⟨s', hPT', rfl⟩
      have hc1 := PT_counts (by simp) (by simp) (by simp) hPT
      have hc1' := PT_counts (by simp) (by simp) (by simp) hPT'
      have htok := @runTrace_tokens α cmp DiffOp.delete DiffOp.insert _ _ _ hPT.2.2
      have htok' := @runTrace_tokens α cmp DiffOp.delete DiffOp.insert _ _ _ hPT'.2.2
      have hlen := @length_eq_countToks DiffOp.delete DiffOp.insert
        (by simp) (by simp) (by simp) _ htok
      have hlen' := @length_eq_countToks DiffOp.delete DiffOp.insert
        (by simp) (by simp) (by simp) _ htok'
      omega
  · -- direct run: a = A, b = B
    obtain ⟨st', p', sf, hrun, hes, hne, hPT, hcnt, hmin⟩ :=
      @engine_spec α cmp DiffOp.insert DiffOp.delete
        (by simp) (by simp) (by simp) A B (by omega)
    refine ⟨sf.drop 1, ?_, ?_, ?_⟩
    · unfold sesDiff
      simp only [if_neg hswap]
      rw [hrun]
      simp only [hes]
    · have := hPT.2.2
      rwa [List.take_length, List.take_length] at this
    · intro s' hs'
      have hPT' : PT cmp DiffOp.insert DiffOp.delete A B s' A.length B.length :=
        ⟨le_refl _, le_refl _, by rwa [List.take_length, List.take_length]⟩
      have hge : p' ≤ countTok DiffOp.delete s' := by
        by_contra hlt
        exact hmin (countTok DiffOp.delete s') (by omega) ⟨s', hPT', rfl⟩
      have hc1 := PT_counts (by simp) (by simp) (by simp) hPT
      have hc1' := PT_counts (by simp) (by simp) (by simp) hPT'
      have htok := @runTrace_tokens α cmp DiffOp.insert DiffOp.delete _ _ _ hPT.2.2
      have htok' := @runTrace_tokens α cmp DiffOp.insert DiffOp.delete _ _ _ hPT'.2.2
      have hlen := @length_eq_countToks DiffOp.insert DiffOp.delete
        (by simp) (by simp) (by simp) _ htok
      have hlen' := @length_eq_countToks DiffOp.insert DiffOp.delete
        (by simp) (by simp) (by simp) _ htok'
      omega

end PhaseLemmas

/-! ## Compactor and patch application: the round-trip -/

section Compactor

variable {cmp : Option α → Option α → Bool}
variable {A B : List (Option α)}

theorem take_append_exact {l1 l2 : List (Option α)} {i : Nat} (h : l1.length = i) :
    (l1 ++ l2).take i = l1 := by
  subst h
  exact List.take_left l1 l2

theorem drop_append_exact {l1 l2 : List (Option α)} {i : Nat} (h : l1.length = i) :
    (l1 ++ l2).drop i = l2 := by
  subst h
  exact List.drop_left l1 l2

theorem drop_jget_cons {l : List (Option α)} {i : Nat} (h : i < l.length) :
    l.drop i = jget l i :: l.drop (i + 1) := by
  have h1 : l.take (i + 1) ++ l.drop (i + 1) = l := List.take_append_drop _ _
  have h2 : l.take i ++ l.drop i = l := List.take_append_drop _ _
  rw [take_succ_jget h] at h1
  have : l.take i ++ (jget l i :: l.drop (i + 1)) = l.take i ++ l.drop i := by
    rw [← h2] at h1 ⊢
    simpa using h1
  exact (List.append_cancel_left this).symm

theorem segment_snoc {i yb : Nat} (hi : i ≤ yb) (h : yb < B.length) :
    (B.take (yb + 1)).drop i = (B.take yb).drop i ++ [jget B yb] := by
  rw [take_succ_jget h, List.drop_append_of_le_length (by rw [List.length_take]; omega)]

theorem applyChanges_snoc {l : List (Change α)} {op : Change α} :
    applyChanges A (l ++ [op]) = applyChange (applyChanges A l) op := by
  unfold applyChanges
  rw [List.foldl_append]
  rfl

theorem pendFlush {st : D2CState α} {xa yb : Nat}
    (hP : PendInv A B st xa yb) (hxa : xa ≤ A.length) (hyb : yb ≤ B.length) :
    applyChanges A (pushLast st).changes = B.take yb ++ A.drop xa ∧
    (pushLast st).lastOperation = none ∧
    (pushLast st).index = st.index ∧
    (pushLast st).changes = st.changes ++
      (match st.lastOperation with | some op => [op] | none => []) := by
  unfold PendInv at hP
  rcases hop : st.lastOperation with _ | op
  · rw [hop] at hP
    unfold pushLast
    rw [hop]
    exact ⟨hP, hop, rfl, by simp⟩
  · rcases op with ⟨i, vs⟩ | ⟨i, h⟩
    · rw [hop] at hP
      obtain ⟨hlen, hile, hvs, hQ⟩ := hP
      unfold pushLast
      rw [hop]
      refine ⟨?_, rfl, rfl, by simp⟩
      rw [applyChanges_snoc, hQ]
      unfold applyChange
      dsimp only
      rw [take_append_exact (by rw [List.length_take]; omega),
        drop_append_exact (by rw [List.length_take]; omega), hvs]
      rw [show B.take i ++ (B.take yb).drop i ++ A.drop xa
        = (B.take i ++ (B.take yb).drop i) ++ A.drop xa by simp]
      congr 1
      rw [show B.take i = (B.take yb).take i by rw [List.take_take]; congr 1; omega]
      exact List.take_append_drop _ _
    · rw [hop] at hP
      obtain ⟨hi, hh, hQ⟩ := hP
      subst hi
      unfold pushLast
      rw [hop]
      refine ⟨?_, rfl, rfl, by simp⟩
      rw [applyChanges_snoc, hQ]
      unfold applyChange
      dsimp only
      rw [take_append_exact (by rw [List.length_take]; omega)]
      congr 1
      have e1 : (B.take i ++ A.drop (xa - h)).drop (i + h)
          = ((B.take i ++ A.drop (xa - h)).drop i).drop h := by
        rw [List.drop_drop]
      rw [e1, drop_append_exact (by rw [List.length_take]; omega), List.drop_drop]
      congr 1
      omega

theorem d2cStep_equal {output : List (Option α)} {st : D2CState α} :
    d2cStep output st DiffOp.equal =
      ⟨(pushLast st).changes, st.index + 1, none⟩ := by
  rcases st with ⟨c, i, lo⟩
  rcases lo with _ | op
  · rfl
  · rfl

theorem d2cStep_insert_cont {output : List (Option α)} {st : D2CState α}
    {i : Nat} {vs : List (Option α)}
    (h : st.lastOperation = some (Change.insert i vs)) :
    d2cStep output st DiffOp.insert =
      ⟨st.changes, st.index + 1,
        some (Change.insert i (vs ++ [jget output st.index]))⟩ := by
  rcases st with ⟨c, idx, lo⟩
  dsimp only at h
  subst h
  rfl

theorem d2cStep_insert_new {output : List (Option α)} {st : D2CState α}
    (h : ∀ i vs, st.lastOperation ≠ some (Change.insert i vs)) :
    d2cStep output st DiffOp.insert =
      ⟨(pushLast st).changes, st.index + 1,
        some (Change.insert st.index [jget output st.index])⟩ := by
  rcases st with ⟨c, idx, lo⟩
  rcases lo with _ | op
  · rfl
  · rcases op with ⟨i, vs⟩ | ⟨i, hm⟩
    · exact absurd rfl (h i vs)
    · rfl

theorem d2cStep_delete_cont {output : List (Option α)} {st : D2CState α}
    {i hm : Nat} (h : st.lastOperation = some (Change.delete i hm)) :
    d2cStep output st DiffOp.delete =
      ⟨st.changes, st.index, some (Change.delete i (hm + 1))⟩ := by
  rcases st with ⟨c, idx, lo⟩
  dsimp only at h
  subst h
  rfl

theorem d2cStep_delete_new {output : List (Option α)} {st : D2CState α}
    (h : ∀ i hm, st.lastOperation ≠ some (Change.delete i hm)) :
    d2cStep output st DiffOp.delete =
      ⟨(pushLast st).changes, st.index, some (Change.delete st.index 1)⟩ := by
  rcases st with ⟨c, idx, lo⟩
  rcases lo with _ | op
  · rfl
  · rcases op with ⟨i, vs⟩ | ⟨i, hm⟩
    · rfl
    · exact absurd rfl (h i hm)

theorem PendInv_none {st : D2CState α} {xa yb : Nat}
    (h : st.lastOperation = none)
    (hQ : applyChanges A st.changes = B.take yb ++ A.drop xa) :
    PendInv A B st xa yb := by
  unfold PendInv
  rw [h]
  exact hQ

theorem PendInv_ins {st : D2CState α} {xa yb i : Nat} {v : List (Option α)}
    (h : st.lastOperation = some (Change.insert i v))
    (h1 : i + v.length = yb) (h2 : i ≤ yb) (h3 : v = (B.take yb).drop i)
    (hQ : applyChanges A st.changes = B.take i ++ A.drop xa) :
    PendInv A B st xa yb := by
  unfold PendInv
  rw [h]
  exact ⟨h1, h2, h3, hQ⟩

theorem PendInv_del {st : D2CState α} {xa yb i m : Nat}
    (h : st.lastOperation = some (Change.delete i m))
    (h1 : i = yb) (h2 : m ≤ xa)
    (hQ : applyChanges A st.changes = B.take yb ++ A.drop (xa - m)) :
    PendInv A B st xa yb := by
  unfold PendInv
  rw [h]
  exact ⟨h1, h2, hQ⟩

theorem drop_cons_facts {l : List (Option α)} {i : Nat} {x : Option α}
    {rest : List (Option α)} (h : l.drop i = x :: rest) :
    i < l.length ∧ x = jget l i ∧ rest = l.drop (i + 1) := by
  have hlen : i < l.length := by
    by_contra hc
    push_neg at hc
    rw [List.drop_eq_nil_of_le hc] at h
    exact absurd h (by simp)
  have h2 := drop_jget_cons hlen
  rw [h] at h2
  injection h2 with e1 e2
  exact ⟨hlen, e1, e2⟩

theorem d2c_fold_inv (hcs : ∀ u v : Option α, cmp u v = true → u = v)
    {s : List DiffOp} :
    ∀ {st : D2CState α} {xa yb : Nat},
    runTrace cmp DiffOp.insert DiffOp.delete s (A.drop xa) (B.drop yb) = true →
    st.index = yb → PendInv A B st xa yb → xa ≤ A.length → yb ≤ B.length →
    applyChanges A (pushLast (s.foldl (d2cStep B) st)).changes = B := by
  induction s with
  | nil =>
    intro st xa yb hrun hidx hP hxa hyb
    rw [List.foldl_nil]
    rw [runTrace_nil_iff] at hrun
    obtain ⟨ha, hb⟩ := hrun
    have hxa2 : xa = A.length := by
      have h := congrArg List.length ha
      rw [List.length_drop] at h
      simp only [List.length_nil] at h
      omega
    have hyb2 : yb = B.length := by
      have h := congrArg List.length hb
      rw [List.length_drop] at h
      simp only [List.length_nil] at h
      omega
    have hfl := (pendFlush hP hxa hyb).1
    rw [hfl, hxa2, hyb2, List.drop_length, List.take_length, List.append_nil]
  | cons t s ih =>
    intro st xa yb hrun hidx hP hxa hyb
    rw [List.foldl_cons]
    rw [runTrace_cons] at hrun
    rcases t with _ | _ | _
    · rw [if_neg (by decide), if_pos rfl] at hrun
      rcases hB : B.drop yb with _ | ⟨y, Brest⟩ <;> rw [hB] at hrun
      · simp at hrun
      · obtain ⟨hylt, hyeq, hBrest⟩ := drop_cons_facts hB
        dsimp only at hrun
        rcases hop : st.lastOperation with _ | op
        · have hno : ∀ j ws, st.lastOperation ≠ some (Change.insert j ws) := by
            intro j ws hc
            rw [hop] at hc
            exact absurd hc (by simp)
          obtain ⟨hfl, _, _, _⟩ := pendFlush hP hxa (le_of_lt hylt)
          refine @ih (d2cStep B st DiffOp.insert) xa (yb + 1) ?_ ?_ ?_ hxa hylt
          · rw [← hBrest]
            exact hrun
          · rw [d2cStep_insert_new hno]
            dsimp only
            omega
          · apply PendInv_ins (i := st.index) (v := [jget B st.index])
            · rw [d2cStep_insert_new hno]
            · simp only [List.length_singleton]
              omega
            · omega
            · rw [hidx, segment_snoc (le_refl yb) hylt,
                List.drop_eq_nil_of_le (by rw [List.length_take]; omega)]
              rfl
            · rw [d2cStep_insert_new hno]
              dsimp only
              rw [hidx]
              exact hfl
        · rcases op with ⟨i, vs⟩ | ⟨i, hm⟩
          · unfold PendInv at hP
            rw [hop] at hP
            obtain ⟨hlen, hile, hvs, hQ⟩ := hP
            refine @ih (d2cStep B st DiffOp.insert) xa (yb + 1) ?_ ?_ ?_ hxa hylt
            · rw [← hBrest]
              exact hrun
            · rw [d2cStep_insert_cont hop]
              dsimp only
              omega
            · apply PendInv_ins (i := i) (v := vs ++ [jget B st.index])
              · rw [d2cStep_insert_cont hop]
              · rw [List.length_append, List.length_singleton]
                omega
              · omega
              · rw [hidx, segment_snoc (by omega) hylt, ← hvs]
              · rw [d2cStep_insert_cont hop]
                dsimp only
                exact hQ
          · have hno : ∀ j ws, st.lastOperation ≠ some (Change.insert j ws) := by
              intro j ws hc
              rw [hop] at hc
              exact absurd hc (by simp)
            obtain ⟨hfl, _, _, _⟩ := pendFlush hP hxa (le_of_lt hylt)
            refine @ih (d2cStep B st DiffOp.insert) xa (yb + 1) ?_ ?_ ?_ hxa hylt
            · rw [← hBrest]
              exact hrun
            · rw [d2cStep_insert_new hno]
              dsimp only
              omega
            · apply PendInv_ins (i := st.index) (v := [jget B st.index])
              · rw [d2cStep_insert_new hno]
              · simp only [List.length_singleton]
                omega
              · omega
              · rw [hidx, segment_snoc (le_refl yb) hylt,
                  List.drop_eq_nil_of_le (by rw [List.length_take]; omega)]
                rfl
              · rw [d2cStep_insert_new hno]
                dsimp only
                rw [hidx]
                exact hfl
    · rw [if_neg (by decide), if_neg (by decide), if_pos rfl] at hrun
      rcases hA : A.drop xa with _ | ⟨x, Arest⟩ <;> rw [hA] at hrun
      · simp at hrun
      · obtain ⟨hxlt, hxeq, hArest⟩ := drop_cons_facts hA
        dsimp only at hrun
        rcases hop : st.lastOperation with _ | op
        · have hno : ∀ j hw, st.lastOperation ≠ some (Change.delete j hw) := by
            intro j hw hc
            rw [hop] at hc
            exact absurd hc (by simp)
          obtain ⟨hfl, _, _, _⟩ := pendFlush hP (le_of_lt hxlt) hyb
          refine @ih (d2cStep B st DiffOp.delete) (xa + 1) yb ?_ ?_ ?_ hxlt hyb
          · rw [← hArest]
            exact hrun
          · rw [d2cStep_delete_new hno]
            dsimp only
            exact hidx
          · apply PendInv_del (i := st.index) (m := 1)
            · rw [d2cStep_delete_new hno]
            · exact hidx
            · omega
            · rw [d2cStep_delete_new hno]
              dsimp only
              rw [show xa + 1 - 1 = xa from by omega]
              exact hfl
        · rcases op with ⟨i, vs⟩ | ⟨i, hm⟩
          · have hno : ∀ j hw, st.lastOperation ≠ some (Change.delete j hw) := by
              intro j hw hc
              rw [hop] at hc
              exact absurd hc (by simp)
            obtain ⟨hfl, _, _, _⟩ := pendFlush hP (le_of_lt hxlt) hyb
            refine @ih (d2cStep B st DiffOp.delete) (xa + 1) yb ?_ ?_ ?_ hxlt hyb
            · rw [← hArest]
              exact hrun
            · rw [d2cStep_delete_new hno]
              dsimp only
              exact hidx
            · apply PendInv_del (i := st.index) (m := 1)
              · rw [d2cStep_delete_new hno]
              · exact hidx
              · omega
              · rw [d2cStep_delete_new hno]
                dsimp only
                rw [show xa + 1 - 1 = xa from by omega]
                exact hfl
          · unfold PendInv at hP
            rw [hop] at hP
            obtain ⟨hiy, hmle, hQ⟩ := hP
            refine @ih (d2cStep B st DiffOp.delete) (xa + 1) yb ?_ ?_ ?_ hxlt hyb
            · rw [← hArest]
              exact hrun
            · rw [d2cStep_delete_cont hop]
              dsimp only
              exact hidx
            · apply PendInv_del (i := i) (m := hm + 1)
              · rw [d2cStep_delete_cont hop]
              · exact hiy
              · omega
              · rw [d2cStep_delete_cont hop]
                dsimp only
                rw [show xa + 1 - (hm + 1) = xa - hm from by omega]
                exact hQ
    · rw [if_pos rfl] at hrun
      rcases hA : A.drop xa with _ | ⟨x, Arest⟩ <;>
        rcases hB : B.drop yb with _ | ⟨y, Brest⟩ <;> rw [hA, hB] at hrun
      · simp at hrun
      · simp at hrun
      · simp at hrun
      · obtain ⟨hxlt, hxeq, hArest⟩ := drop_cons_facts hA
        obtain ⟨hylt, hyeq, hBrest⟩ := drop_cons_facts hB
        dsimp only at hrun
        rw [Bool.and_eq_true] at hrun
        obtain ⟨hcmp, htail⟩ := hrun
        have heq : jget A xa = jget B yb := by
          rw [← hxeq, ← hyeq]
          exact hcs x y hcmp
        obtain ⟨hfl, _, _, _⟩ := pendFlush hP (le_of_lt hxlt) (le_of_lt hylt)
        refine @ih (d2cStep B st DiffOp.equal) (xa + 1) (yb + 1) ?_ ?_ ?_ hxlt hylt
        · rw [← hArest, ← hBrest]
          exact htail
        · rw [d2cStep_equal]
          dsimp only
          omega
        · apply PendInv_none
          · rw [d2cStep_equal]
          · rw [d2cStep_equal]
            dsimp only
            have hs : B.take (yb + 1) ++ A.drop (xa + 1)
                = B.take yb ++ A.drop xa := by
              rw [take_succ_jget hylt, drop_jget_cons hxlt, heq, List.append_assoc]
              rfl
            rw [hs]
            exact hfl

/-- Round trip of the compactor against the client-side patch application:
for any valid edit path `s` from `A` to `B` (under a sound comparator),
applying `diffToChanges s B` to `A` yields `B`. -/
theorem diffToChanges_roundtrip (hcs : ∀ u v : Option α, cmp u v = true → u = v)
    {s : List DiffOp}
    (hrun : runTrace cmp DiffOp.insert DiffOp.delete s A B = true) :
    applyChanges A (diffToChanges s B) = B := by
  unfold diffToChanges
  refine @d2c_fold_inv _ cmp A B hcs s ⟨[], 0, none⟩ 0 0 ?_ rfl ?_ (by omega) (by omega)
  · simpa using hrun
  · apply PendInv_none rfl
    simp [applyChanges]

end Compactor

/-! ## The boundary engine: `findFirstDifferenceIndex` and friends -/

section BoundaryEngine

variable {cmp : Option α → Option α → Bool} {tIns tDel : DiffOp}

theorem jget_none_of_ge {l : List (Option α)} {i : Nat} (h : l.length ≤ i) :
    jget l i = none := by
  rw [jget, List.get?_eq_none.mpr h]
  rfl

theorem jget_cons_zero {x : Option α} {l : List (Option α)} : jget (x :: l) 0 = x := rfl

theorem jget_cons_succ {x : Option α} {l : List (Option α)} {i : Nat} :
    jget (x :: l) (i + 1) = jget l i := rfl

theorem jget_take {l : List (Option α)} {f i : Nat} (h : i < f) :
    jget (l.take f) i = jget l i := by
  rw [jget, jget, List.get?_take h]

theorem jget_drop {l : List (Option α)} {f i : Nat} :
    jget (l.drop f) i = jget l (f + i) := by
  rw [jget, jget, List.get?_eq_getElem?, List.get?_eq_getElem?, List.getElem?_drop]

theorem jget_reverse {l : List (Option α)} {i : Nat} (h : i < l.length) :
    jget l.reverse i = jget l (l.length - 1 - i) := by
  rw [jget, jget, List.get?_eq_getElem?, List.get?_eq_getElem?, List.getElem?_reverse h]

theorem find_range_none {p : Nat → Bool} {n : Nat}
    (h : (List.range n).find? p = none) : ∀ j, j < n → p j = false := by
  intro j hj
  have := List.find?_eq_none.mp h j (List.mem_range.mpr hj)
  simpa using this

theorem find_range_some {p : Nat → Bool} {n i : Nat}
    (h : (List.range n).find? p = some i) :
    i < n ∧ p i = true ∧ ∀ j, j < i → p j = false := by
  induction n with
  | zero => exact absurd h (by simp [List.range_zero])
  | succ n ih =>
    rw [List.range_succ, List.find?_append] at h
    cases hr : (List.range n).find? p with
    | some j =>
      rw
        [hr, Option.or_some] at h
      injection h with h
      subst h
      obtain ⟨h1, h2, h3⟩ := ih hr
      exact ⟨by omega, h2, h3⟩
    | none =>
      rw [hr, Option.none_or] at h
      by_cases hp : p n = true
      · rw [show ([n].find? p) = some n from by simp [List.find?_cons, hp]] at h
        injection h with h
        subst h
        exact ⟨by omega, hp, fun j hj => find_range_none hr j hj⟩
      · have hb : p n = false := by
          cases hq : p n
          · rfl
          · exact absurd hq hp
        rw [show ([n].find? p) = none from by simp [List.find?_cons, hb]] at h
        exact absurd h (by simp)

theorem find_range_some_of {p : Nat → Bool} {n i : Nat} (hin : i < n)
    (hp : p i = true) (hmin : ∀ j, j < i → p j = false) :
    (List.range n).find? p = some i := by
  induction n with
  | zero => omega
  | succ n ih =>
    rw [List.range_succ, List.find?_append]
    by_cases hi : i < n
    · rw [ih hi]
      rfl
    · have hieq : i = n := by omega
      have hnone : (List.range n).find? p = none := by
        rw [List.find?_eq_none]
        intro x hx
        rw [List.mem_range] at hx
        simp [hmin x (by omega)]
      rw [hnone, Option.none_or,
        show ([n].find? p) = some n from by rw [← hieq]; simp [List.find?_cons, hp],
        hieq]

/-- Characterization of `findFirstDifferenceIndex` returning `-1`: the inputs
have the same length and every slot holds a defined value accepted by the
comparator. -/
theorem ffdi_eq_none {a1 a2 : List (Option α)}
    (h : findFirstDifferenceIndex cmp a1 a2 = none) :
    a1.length = a2.length ∧
      ∀ i, i < a1.length → (jget a1 i).isSome = true ∧ (jget a2 i).isSome = true ∧
        cmp (jget a1 i) (jget a2 i) = true := by
  unfold findFirstDifferenceIndex at h
  have hall := find_range_none h
  have hpt : ∀ i, i < max a1.length a2.length →
      (jget a1 i).isSome = true ∧ (jget a2 i).isSome = true ∧
        cmp (jget a1 i) (jget a2 i) = true := by
    intro i hi
    have h0 := hall i hi
    simp only [Bool.or_eq_false_iff] at h0
    refine ⟨?_, ?_, ?_⟩
    · cases hg : jget a1 i
      · rw [hg] at h0
        exact absurd h0.1.1 (by simp)
      · rfl
    · cases hg : jget a2 i
      · rw [hg] at h0
        exact absurd h0.1.2 (by simp)
      · rfl
    · cases hc : cmp (jget a1 i) (jget a2 i)
      · rw [hc] at h0
        exact absurd h0.2 (by simp)
      · rfl
  have hlen : a1.length = a2.length := by
    by_contra hne
    rcases Nat.lt_or_ge a1.length a2.length with hlt | hge
    · have := (hpt a1.length (by omega)).1
      rw [jget_none_of_ge (le_refl a1.length)] at this
      exact absurd this (by simp)
    · have hlt : a2.length < a1.length := by omega
      have := (hpt a2.length (by omega)).2.1
      rw [jget_none_of_ge (le_refl a2.length)] at this
      exact absurd this (by simp)
  exact ⟨hlen, fun i hi => hpt i (by omega)⟩

/-- Characterization of `findFirstDifferenceIndex` returning an index: every
earlier slot is defined on both sides and accepted by the comparator, and the
returned slot is undefined on a side or rejected. -/
theorem ffdi_eq_some {a1 a2 : List (Option α)} {f : Nat}
    (h : findFirstDifferenceIndex cmp a1 a2 = some f) :
    (f < a1.length ∨ f < a2.length) ∧
      (∀ j, j < f → (jget a1 j).isSome = true ∧ (jget a2 j).isSome = true ∧
        cmp (jget a1 j) (jget a2 j) = true) ∧
      ((jget a1 f) = none ∨ (jget a2 f) = none ∨
        cmp (jget a1 f) (jget a2 f) = false) := by
  unfold findFirstDifferenceIndex at h
  obtain ⟨h1, h2, h3⟩ := find_range_some h
  refine ⟨lt_max_iff.mp h1, ?_, ?_⟩
  · intro j hj
    have h0 := h3 j hj
    simp only [Bool.or_eq_false_iff] at h0
    refine ⟨?_, ?_, ?_⟩
    · cases hg : jget a1 j
      · rw [hg] at h0
        exact absurd h0.1.1 (by simp)
      · rfl
    · cases hg : jget a2 j
      · rw [hg] at h0
        exact absurd h0.1.2 (by simp)
      · rfl
    · cases hc : cmp (jget a1 j) (jget a2 j)
      · rw [hc] at h0
        exact absurd h0.2 (by simp)
      · rfl
  · simp only [Bool.or_eq_true] at h2
    rcases h2 with (hh | hh) | hh
    · exact Or.inl (Option.isNone_iff_eq_none.mp hh)
    · exact Or.inr (Or.inl (Option.isNone_iff_eq_none.mp hh))
    · refine Or.inr (Or.inr ?_)
      cases hc : cmp (jget a1 f) (jget a2 f)
      · rfl
      · rw [hc] at hh
        exact absurd hh (by simp)

/-- `findFirstDifferenceIndex` bounds: the first difference is at or before
either length. -/
theorem ffdi_some_le {a1 a2 : List (Option α)} {f : Nat}
    (h : findFirstDifferenceIndex cmp a1 a2 = some f) :
    f ≤ a1.length ∧ f ≤ a2.length := by
  obtain ⟨h1, h2, h3⟩ := ffdi_eq_some h
  constructor
  · by_contra hc
    push_neg at hc
    have := (h2 a1.length hc).1
    rw [jget_none_of_ge (le_refl a1.length)] at this
    exact absurd this (by simp)
  · by_contra hc
    push_neg at hc
    have := (h2 a2.length hc).2.1
    rw [jget_none_of_ge (le_refl a2.length)] at this
    exact absurd this (by simp)

theorem runTrace_eqSeg {j : Nat} :
    ∀ {pa pb : List (Option α)}, pa.length = j → pb.length = j →
    (∀ i, i < j → cmp (jget pa i) (jget pb i) = true) →
    runTrace cmp tIns tDel (List.replicate j DiffOp.equal) pa pb = true := by
  induction j with
  | zero =>
    intro pa pb h1 h2 _
    rw [List.length_eq_zero] at h1 h2
    subst h1
    subst h2
    rfl
  | succ j ih =>
    intro pa pb h1 h2 hcmp
    rcases pa with _ | ⟨x, pa⟩
    · exact absurd h1 (by simp)
    rcases pb with _ | ⟨y, pb⟩
    · exact absurd h2 (by simp)
    rw [List.replicate_succ, runTrace_cons, if_pos rfl]
    dsimp only
    rw [Bool.and_eq_true]
    constructor
    · exact hcmp 0 (by omega)
    · refine ih (by simpa using h1) (by simpa using h2) ?_
      intro i hi
      exact hcmp (i + 1) (by omega)

theorem runTrace_insSeg (hIE : tIns ≠ DiffOp.equal) {pb : List (Option α)} :
    runTrace cmp tIns tDel (List.replicate pb.length tIns) [] pb = true := by
  induction pb with
  | nil => rfl
  | cons y pb ih =>
    rw [List.length_cons, List.replicate_succ, runTrace_cons, if_neg hIE, if_pos rfl]
    exact ih

theorem runTrace_delSeg (hDE : tDel ≠ DiffOp.equal) (hID : tIns ≠ tDel)
    {pa : List (Option α)} :
    runTrace cmp tIns tDel (List.replicate pa.length tDel) pa [] = true := by
  induction pa with
  | nil => rfl
  | cons x pa ih =>
    rw [List.length_cons, List.replicate_succ, runTrace_cons, if_neg hDE,
      if_neg (Ne.symm hID), if_pos rfl]
    exact ih

theorem findChangeBoundaryIndexes_none {A B : List (Option α)}
    (h : findFirstDifferenceIndex cmp A B = none) :
    findChangeBoundaryIndexes cmp A B = none := by
  unfold findChangeBoundaryIndexes
  rw [h]

/-- The second (reversed) `findFirstDifferenceIndex` call of
`findChangeBoundaryIndexes` never returns `-1`: the difference found
by the first call is still present in the reversed remainders. -/
theorem ffdi_rev_ne_none {A B : List (Option α)} {f : Nat}
    (hf : findFirstDifferenceIndex cmp A B = some f) :
    findFirstDifferenceIndex cmp (cutAndReverse A f) (cutAndReverse B f) ≠ none := by
  intro hnone
  obtain ⟨hfle1, hfle2⟩ := ffdi_some_le hf
  obtain ⟨hmax, hpre, hat⟩ := ffdi_eq_some hf
  obtain ⟨hlen, hall⟩ := ffdi_eq_none hnone
  rw [cutAndReverse, cutAndReverse, List.length_reverse, List.length_reverse,
    List.length_drop, List.length_drop] at hlen
  have hAB : A.length = B.length := by omega
  have hfA : f < A.length := by omega
  have hfB : f < B.length := by omega
  have hidx : A.length - f - 1 < (cutAndReverse A f).length := by
    rw [cutAndReverse, List.length_reverse, List.length_drop]
    omega
  have hgA : jget (cutAndReverse A f) (A.length - f - 1) = jget A f := by
    rw [cutAndReverse, jget_reverse (by rw [List.length_drop]; omega),
      List.length_drop, jget_drop]
    congr 1
    omega
  have hgB : jget (cutAndReverse B f) (A.length - f - 1) = jget B f := by
    rw [cutAndReverse, jget_reverse (by rw [List.length_drop]; omega),
      List.length_drop, jget_drop]
    congr 1
    omega
  have h0 := hall (A.length - f - 1) hidx
  rw [hgA, hgB] at h0
  rcases hat with hh | hh | hh
  · rw [hh] at h0
    exact absurd h0.1 (by simp)
  · rw [hh] at h0
    exact absurd h0.2.1 (by simp)
  · rw [hh] at h0
    exact absurd h0.2.2 (by simp)

/-- In the non-degenerate case `findChangeBoundaryIndexes` returns the record
`{firstIndex, len1 - lastIndex, len2 - lastIndex}` built from the two
difference searches. -/
theorem findChangeBoundaryIndexes_some {A B : List (Option α)} {f : Nat}
    (hf : findFirstDifferenceIndex cmp A B = some f) :
    ∃ j : Nat,
      findChangeBoundaryIndexes cmp A B =
        some ⟨f, (A.length : Int) - (j : Int), (B.length : Int) - (j : Int)⟩ ∧
      findFirstDifferenceIndex cmp (cutAndReverse A f) (cutAndReverse B f) = some j := by
  cases hr : findFirstDifferenceIndex cmp (cutAndReverse A f) (cutAndReverse B f) with
  | none => exact absurd hr (ffdi_rev_ne_none hf)
  | some j =>
    refine ⟨j, ?_, rfl⟩
    unfold findChangeBoundaryIndexes
    rw [hf]
    dsimp only
    rw [hr]

/-- The geometry of the change boundary: the common prefix and suffix fit, the
prefix compares equal pointwise, the suffix compares equal pointwise, and the
change region is nonempty on at least one side. -/
theorem boundary_facts {A B : List (Option α)} {f j : Nat}
    (hf : findFirstDifferenceIndex cmp A B = some f)
    (hj : findFirstDifferenceIndex cmp (cutAndReverse A f) (cutAndReverse B f) = some j) :
    f + j ≤ A.length ∧ f + j ≤ B.length ∧
      (∀ i, i < f → cmp (jget A i) (jget B i) = true) ∧
      (∀ i, i < j → cmp (jget A (A.length - j + i)) (jget B (B.length - j + i)) = true) ∧
      (f + j < A.length ∨ f + j < B.length) := by
  obtain ⟨hfle1, hfle2⟩ := ffdi_some_le hf
  obtain ⟨hmaxf, hpref, _⟩ := ffdi_eq_some hf
  obtain ⟨hmaxj, hprej, _⟩ := ffdi_eq_some hj
  rw [cutAndReverse, cutAndReverse, List.length_reverse, List.length_reverse,
    List.length_drop, List.length_drop] at hmaxj
  have hjA : j ≤ A.length - f := by
    by_contra hc
    push_neg at hc
    have := (hprej (A.length - f) hc).1
    rw [jget_none_of_ge (by rw [cutAndReverse, List.length_reverse,
      List.length_drop])] at this
    exact absurd this (by simp)
  have hjB : j ≤ B.length - f := by
    by_contra hc
    push_neg at hc
    have := (hprej (B.length - f) hc).2.1
    rw [jget_none_of_ge (by rw [cutAndReverse, List.length_reverse,
      List.length_drop])] at this
    exact absurd this (by simp)
  refine ⟨by omega, by omega, ?_, ?_, by omega⟩
  · intro i hi
    exact (hpref i hi).2.2
  · intro i hi
    have h0 := (hprej (j - 1 - i) (by omega)).2.2
    rw [cutAndReverse, cutAndReverse,
      jget_reverse (by rw [List.length_drop]; omega),
      jget_reverse (by rw [List.length_drop]; omega),
      List.length_drop, List.length_drop, jget_drop, jget_drop] at h0
    rw [show A.length - j + i = f + (A.length - f - 1 - (j - 1 - i)) from by omega,
      show B.length - j + i = f + (B.length - f - 1 - (j - 1 - i)) from by omega]
    exact h0

theorem replicate_of_pos_if {t : DiffOp} {c : Int} :
    (if 0 < c then List.replicate c.toNat t else []) = List.replicate c.toNat t := by
  by_cases h : 0 < c
  · rw [if_pos h]
  · rw [if_neg h, show c.toNat = 0 from by omega]
    rfl

theorem replicate_of_pos_if_nat {t : DiffOp} {c : Nat} :
    (if 0 < c then List.replicate c t else []) = List.replicate c t := by
  by_cases h : 0 < c
  · rw [if_pos h]
  · rw [if_neg h, show c = 0 from by omega]
    rfl

/-- Validity of the boundary engine's atomic stream: it is an edit path
from `a` to `b` for any comparator. -/
theorem fastDiffAtomic_valid {A B : List (Option α)} :
    runTrace cmp DiffOp.insert DiffOp.delete (fastDiffAtomic cmp A B) A B = true := by
  unfold fastDiffAtomic
  cases hf : findFirstDifferenceIndex cmp A B with
  | none =>
    rw [findChangeBoundaryIndexes_none hf]
    unfold changeIndexesToAtomicChanges
    obtain ⟨hlen, hall⟩ := ffdi_eq_none hf
    exact runTrace_eqSeg hlen rfl (fun i hi => (hall i (by omega)).2.2)
  | some f =>
    obtain ⟨j, hb, hj⟩ := findChangeBoundaryIndexes_some hf
    rw [hb]
    unfold changeIndexesToAtomicChanges
    dsimp only
    obtain ⟨hjA, hjB, hpre, hsuf, hne⟩ := boundary_facts hf hj
    have hni : ((B.length : Int) - (j : Int) - (f : Int)).toNat = B.length - j - f := by
      omega
    have hnd : ((A.length : Int) - (j : Int) - (f : Int)).toNat = A.length - j - f := by
      omega
    have htail : (if ((B.length : Int) - (j : Int)) < (B.length : Int) then
        List.replicate (((B.length : Int) - ((B.length : Int) - (j : Int)))).toNat
          DiffOp.equal else [])
        = List.replicate j DiffOp.equal := by
      rw [show ((B.length : Int) - ((B.length : Int) - (j : Int))).toNat = j from by omega]
      by_cases h : ((B.length : Int) - (j : Int)) < (B.length : Int)
      · rw [if_pos h]
      · rw [if_neg h, show j = 0 from by omega]
        rfl
    rw [replicate_of_pos_if_nat, replicate_of_pos_if, replicate_of_pos_if, htail,
      hni, hnd]
    have hsplitA : A = A.take f ++ ([] ++ ((A.drop f).take (A.length - j - f)
        ++ A.drop (f + (A.length - j - f)))) := by
      rw [List.nil_append, show A.drop (f + (A.length - j - f))
        = (A.drop f).drop (A.length - j - f) from by rw [List.drop_drop],
        List.take_append_drop, List.take_append_drop]
    have hsplitB : B = B.take f ++ ((B.drop f).take (B.length - j - f)
        ++ ([] ++ B.drop (f + (B.length - j - f)))) := by
      rw [List.nil_append, show B.drop (f + (B.length - j - f))
        = (B.drop f).drop (B.length - j - f) from by rw [List.drop_drop],
        List.take_append_drop, List.take_append_drop]
    have hA1 : (A.take f).length = f := by
      rw [List.length_take]
      omega
    have hB1 : (B.take f).length = f := by
      rw [List.length_take]
      omega
    have hAm : ((A.drop f).take (A.length - j - f)).length = A.length - j - f := by
      rw [List.length_take, List.length_drop]
      omega
    have hBm : ((B.drop f).take (B.length - j - f)).length = B.length - j - f := by
      rw [List.length_take, List.length_drop]
      omega
    have hAs : (A.drop (f + (A.length - j - f))).length = j := by
      rw [List.length_drop]
      omega
    have hBs : (B.drop (f + (B.length - j - f))).length = j := by
      rw [List.length_drop]
      omega
    have hseg1 : runTrace cmp DiffOp.insert DiffOp.delete
        (List.replicate f DiffOp.equal) (A.take f) (B.take f) = true := by
      refine runTrace_eqSeg hA1 hB1 ?_
      intro i hi
      rw [jget_take hi, jget_take hi]
      exact hpre i hi
    have hseg2 : runTrace cmp DiffOp.insert DiffOp.delete
        (List.replicate (B.length - j - f) DiffOp.insert)
        [] ((B.drop f).take (B.length - j - f)) = true := by
      nth_rewrite 1 [← hBm]
      exact runTrace_insSeg (show DiffOp.insert ≠ DiffOp.equal from by decide)
    have hseg3 : runTrace cmp DiffOp.insert DiffOp.delete
        (List.replicate (A.length - j - f) DiffOp.delete)
        ((A.drop f).take (A.length - j - f)) [] = true := by
      nth_rewrite 1 [← hAm]
      exact runTrace_delSeg (show DiffOp.delete ≠ DiffOp.equal from by decide)
        (show DiffOp.insert ≠ DiffOp.delete from by decide)
    have hseg4 : runTrace cmp DiffOp.insert DiffOp.delete
        (List.replicate j DiffOp.equal)
        (A.drop (f + (A.length - j - f))) (B.drop (f + (B.length - j - f))) = true := by
      refine runTrace_eqSeg hAs hBs ?_
      intro i hi
      rw [jget_drop, jget_drop,
        show f + (A.length - j - f) + i = A.length - j + i from by omega,
        show f + (B.length - j - f) + i = B.length - j + i from by omega]
      exact hsuf i hi
    have hmain := runTrace_append hseg1
      (runTrace_append hseg2 (runTrace_append hseg3 hseg4))
    rw [← hsplitA, ← hsplitB] at hmain
    simpa using hmain

end BoundaryEngine

/-! ## The dispatcher `diff` and the client wrappers -/

section Dispatcher

theorem jsStrictEq_symm [DecidableEq α] :
    ∀ u v : Option α, jsStrictEq u v = jsStrictEq v u := by
  intro u v
  unfold jsStrictEq
  by_cases h : u = v
  · rw [h]
  · rw [decide_eq_false h, decide_eq_false (fun hh => h hh.symm)]

theorem jsStrictEq_sound [DecidableEq α] :
    ∀ u v : Option α, jsStrictEq u v = true → u = v := by
  intro u v h
  exact of_decide_eq_true h

theorem jsStrictEq_refl [DecidableEq α] (u : Option α) : jsStrictEq u u = true := by
  unfold jsStrictEq
  exact decide_eq_true rfl

/-- `diff` always returns a stream, and the stream is a valid edit path from
`A` to `B`, whichever engine the dispatcher picks. -/
theorem diff_ok {cmp : Option α → Option α → Bool}
    (hsymm : ∀ u v, cmp u v = cmp v u) (A B : List (Option α)) :
    ∃ s, diff cmp A B = some s ∧
      runTrace cmp DiffOp.insert DiffOp.delete s A B = true := by
  unfold diff
  by_cases h : 200 < A.length ∨ 200 < B.length ∨ 300 < A.length + B.length
  · rw [if_pos h]
    exact ⟨fastDiffAtomic cmp A B, rfl, fastDiffAtomic_valid⟩
  · rw [if_neg h]
    obtain ⟨s, h1, h2, _⟩ := sesDiff_ok hsymm A B
    exact ⟨s, h1, h2⟩

/-- On the small-input branch the dispatcher's stream is also length-minimal. -/
theorem diff_small_ok {cmp : Option α → Option α → Bool}
    (hsymm : ∀ u v, cmp u v = cmp v u) (A B : List (Option α))
    (h1 : A.length ≤ 200) (h2 : B.length ≤ 200) (h3 : A.length + B.length ≤ 300) :
    ∃ s, diff cmp A B = some s ∧
      runTrace cmp DiffOp.insert DiffOp.delete s A B = true ∧
      (∀ s', runTrace cmp DiffOp.insert DiffOp.delete s' A B = true →
        s.length ≤ s'.length) := by
  unfold diff
  rw [if_neg (by omega)]
  exact sesDiff_ok hsymm A B

/-- A script made only of `equal` tokens. -/
theorem eq_count_full {s : List DiffOp} (h : countTok DiffOp.equal s = s.length) :
    s = List.replicate s.length DiffOp.equal := by
  induction s with
  | nil => rfl
  | cons t s ih =>
    rw [countTok_cons, List.length_cons] at h
    by_cases ht : t = DiffOp.equal
    · subst ht
      rw [if_pos rfl] at h
      rw [List.length_cons, List.replicate_succ]
      rw [ih (by omega)]
      rw [List.length_replicate]
    · rw [if_neg ht] at h
      have := countTok_le_length (t := DiffOp.equal) (s := s)
      omega

/-- The search engine on identical inputs: the minimal script is the pure
equal-run, so that is what comes back. -/
theorem sesDiff_self [DecidableEq α] (M : List (Option α)) :
    sesDiff jsStrictEq M M = some (List.replicate M.length DiffOp.equal) := by
  obtain ⟨s, h1, h2, h3⟩ := sesDiff_ok jsStrictEq_symm M M
  have hvalid : runTrace jsStrictEq DiffOp.insert DiffOp.delete
      (List.replicate M.length DiffOp.equal) M M = true :=
    runTrace_eqSeg rfl rfl (fun i _ => jsStrictEq_refl _)
  have hmin := h3 _ hvalid
  rw [List.length_replicate] at hmin
  obtain ⟨hd, hi⟩ := runTrace_counts (by decide) (by decide) (by decide) h2
  have htoks := @runTrace_tokens α jsStrictEq DiffOp.insert DiffOp.delete _ _ _ h2
  have hlen := @length_eq_countToks DiffOp.insert DiffOp.delete
    (by decide) (by decide) (by decide) _ htoks
  have hEq : countTok DiffOp.equal s = s.length := by omega
  have hsl : s.length = M.length := by omega
  rw [h1, eq_count_full hEq, hsl]

theorem jget_map_some {A : List α} {i : Nat} (h : i < A.length) :
    ∃ x, jget (A.map some) i = some x := by
  rw [jget, List.get?_map]
  cases hg : A.get? i with
  | none =>
    rw [List.get?_eq_none] at hg
    omega
  | some x => exact ⟨x, rfl⟩

/-- A sequence of proper (defined) values compares equal to itself everywhere,
so the boundary search finds no difference. -/
theorem ffdi_self_map_some [DecidableEq α] {A : List α} :
    findFirstDifferenceIndex jsStrictEq (A.map some) (A.map some) = none := by
  unfold findFirstDifferenceIndex
  rw [List.find?_eq_none]
  intro i hi
  rw [List.mem_range, max_self, List.length_map] at hi
  obtain ⟨x, hx⟩ := jget_map_some hi
  simp [hx, jsStrictEq]

/-- `diff(A, A)` on a proper sequence is the pure equal-run on both branches of
the dispatcher. -/
theorem diff_self_map_some [DecidableEq α] (A : List α) :
    diff jsStrictEq (A.map some) (A.map some)
      = some (List.replicate A.length DiffOp.equal) := by
  unfold diff
  by_cases h : 200 < (A.map some).length ∨ 200 < (A.map some).length ∨
      300 < (A.map some).length + (A.map some).length
  · rw [if_pos h]
    unfold fastDiffAtomic
    rw [findChangeBoundaryIndexes_none ffdi_self_map_some]
    unfold changeIndexesToAtomicChanges
    rw [List.length_map]
  · rw [if_neg h, sesDiff_self, List.length_map]

theorem d2c_replicate_eq {out : List (Option α)} {n : Nat} :
    ∀ k, (List.replicate n DiffOp.equal).foldl (d2cStep out)
      (⟨[], k, none⟩ : D2CState α) = ⟨[], k + n, none⟩ := by
  induction n with
  | zero =>
    intro k
    rfl
  | succ n ih =>
    intro k
    rw [List.replicate_succ, List.foldl_cons,
      show d2cStep out (⟨[], k, none⟩ : D2CState α) DiffOp.equal
        = ⟨[], k + 1, none⟩ from rfl, ih (k + 1)]
    rw [show k + 1 + n = k + (n + 1) from by omega]

/-- The compactor turns a pure equal-run into the empty patch list. -/
theorem diffToChanges_replicate_eq {out : List (Option α)} {n : Nat} :
    diffToChanges (List.replicate n DiffOp.equal) out = [] := by
  unfold diffToChanges
  rw [d2c_replicate_eq 0]
  rfl

theorem getChanges_self [DecidableEq α] (A : List α) :
    getChanges (A.map some) (A.map some) = [] := by
  unfold getChanges
  rw [diff_self_map_some]
  exact diffToChanges_replicate_eq

theorem fastDiffCompacted_self [DecidableEq α] (A : List α) :
    fastDiffCompacted jsStrictEq (A.map some) (A.map some) = [] := by
  unfold fastDiffCompacted
  rw [findChangeBoundaryIndexes_none ffdi_self_map_some]
  rfl

end Dispatcher

/-! ## Nontriviality of emitted patch operations -/

section Nontrivial

variable {cmp : Option α → Option α → Bool}

theorem d2c_nontrivial_aux {out : List (Option α)} {s : List DiffOp} :
    ∀ {st : D2CState α},
    (∀ c ∈ st.changes, nontrivialChange c) →
    (∀ c, st.lastOperation = some c → nontrivialChange c) →
    ∀ c ∈ (pushLast (s.foldl (d2cStep out) st)).changes, nontrivialChange c := by
  induction s with
  | nil =>
    intro st h1 h2 c hc
    rw [List.foldl_nil] at hc
    rcases hop : st.lastOperation with _ | op
    · rw [show pushLast st = st from by unfold pushLast; rw [hop]] at hc
      exact h1 c hc
    · rw [show (pushLast st).changes = st.changes ++ [op] from by
        unfold pushLast; rw [hop]] at hc
      rcases List.mem_append.mp hc with hm | hm
      · exact h1 c hm
      · rw [List.mem_singleton] at hm
        subst hm
        exact h2 c hop
  | cons t s ih =>
    intro st h1 h2
    rw [List.foldl_cons]
    have hflush1 : ∀ c ∈ (pushLast st).changes, nontrivialChange c := by
      intro c hc
      rcases hop : st.lastOperation with _ | op
      · rw [show pushLast st = st from by unfold pushLast; rw [hop]] at hc
        exact h1 c hc
      · rw [show (pushLast st).changes = st.changes ++ [op] from by
          unfold pushLast; rw [hop]] at hc
        rcases List.mem_append.mp hc with hm | hm
        · exact h1 c hm
        · rw [List.mem_singleton] at hm
          subst hm
          exact h2 c hop
    rcases t with _ | _ | _
    · rcases hop : st.lastOperation with _ | op
      · refine ih ?_ ?_
        · rw [d2cStep_insert_new (by intro i vs hc; rw [hop] at hc; exact absurd hc (by simp))]
          exact hflush1
        · rw [d2cStep_insert_new (by intro i vs hc; rw [hop] at hc; exact absurd hc (by simp))]
          intro c hc
          injection hc with hc
          subst hc
          unfold nontrivialChange
          simp
      · rcases op with ⟨i, vs⟩ | ⟨i, hm⟩
        · refine ih ?_ ?_
          · rw [d2cStep_insert_cont hop]
            exact h1
          · rw [d2cStep_insert_cont hop]
            intro c hc
            injection hc with hc
            subst hc
            unfold nontrivialChange
            simp
        · refine ih ?_ ?_
          · rw [d2cStep_insert_new (by intro i' vs' hc; rw [hop] at hc; exact absurd hc (by simp))]
            exact hflush1
          · rw [d2cStep_insert_new (by intro i' vs' hc; rw [hop] at hc; exact absurd hc (by simp))]
            intro c hc
            injection hc with hc
            subst hc
            unfold nontrivialChange
            simp
    · rcases hop : st.lastOperation with _ | op
      · refine ih ?_ ?_
        · rw [d2cStep_delete_new (by intro i hm hc; rw [hop] at hc; exact absurd hc (by simp))]
          exact hflush1
        · rw [d2cStep_delete_new (by intro i hm hc; rw [hop] at hc; exact absurd hc (by simp))]
          intro c hc
          injection hc with hc
          subst hc
          unfold nontrivialChange
          omega
      · rcases op with ⟨i, vs⟩ | ⟨i, hm⟩
        · refine ih ?_ ?_
          · rw [d2cStep_delete_new (by intro i' hm' hc; rw [hop] at hc; exact absurd hc (by simp))]
            exact hflush1
          · rw [d2cStep_delete_new (by intro i' hm' hc; rw [hop] at hc; exact absurd hc (by simp))]
            intro c hc
            injection hc with hc
            subst hc
            unfold nontrivialChange
            omega
        · refine ih ?_ ?_
          · rw [d2cStep_delete_cont hop]
            exact h1
          · rw [d2cStep_delete_cont hop]
            intro c hc
            injection hc with hc
            subst hc
            unfold nontrivialChange
            omega
    · refine ih ?_ ?_
      · rw [d2cStep_equal]
        exact hflush1
      · rw [d2cStep_equal]
        intro c hc
        exact absurd hc (by simp)

/-- Every operation the compactor emits is non-trivial. -/
theorem diffToChanges_nontrivial {s : List DiffOp} {out : List (Option α)} :
    ∀ c ∈ diffToChanges s out, nontrivialChange c := by
  unfold diffToChanges
  exact d2c_nontrivial_aux (by intro c hc; exact absurd hc (by simp))
    (by intro c hc; exact absurd hc (by simp))

/-- Every operation the boundary engine's compacted mode emits is non-trivial. -/
theorem fastDiffCompacted_nontrivial {A B : List (Option α)} :
    ∀ c ∈ fastDiffCompacted cmp A B, nontrivialChange c := by
  unfold fastDiffCompacted
  cases hf : findFirstDifferenceIndex cmp A B with
  | none =>
    rw [findChangeBoundaryIndexes_none hf]
    intro c hc
    exact absurd hc (by simp [changeIndexesToChanges])
  | some f =>
    obtain ⟨j, hb, hj⟩ := findChangeBoundaryIndexes_some hf
    obtain ⟨hjA, hjB, _, _, _⟩ := boundary_facts hf hj
    rw [hb]
    unfold changeIndexesToChanges
    dsimp only
    intro c hc
    rcases List.mem_append.mp hc with hm | hm
    · by_cases hg : 0 < (B.length : Int) - (j : Int) - (f : Int)
      · rw [if_pos hg, List.mem_singleton] at hm
        subst hm
        unfold nontrivialChange
        intro hnil
        have := congrArg List.length hnil
        rw [List.length_drop, List.length_take, List.length_nil] at this
        omega
      · rw [if_neg hg] at hm
        exact absurd hm (by simp)
    · by_cases hg : 0 < (A.length : Int) - (j : Int) - (f : Int)
      · rw [if_pos hg, List.mem_singleton] at hm
        subst hm
        unfold nontrivialChange
        omega
      · rw [if_neg hg] at hm
        exact absurd hm (by simp)

/-- The delete tokens of the boundary engine's atomic stream count the old-side
change region. -/
theorem fastDiffAtomic_delete_count {A B : List (Option α)} {f j : Nat}
    (hf : findFirstDifferenceIndex cmp A B = some f)
    (hj : findFirstDifferenceIndex cmp (cutAndReverse A f) (cutAndReverse B f) = some j) :
    countTok DiffOp.delete (fastDiffAtomic cmp A B) = A.length - j - f := by
  obtain ⟨j', hb, hj'⟩ := findChangeBoundaryIndexes_some hf
  rw [hj] at hj'
  injection hj' with hj'
  subst hj'
  obtain ⟨hjA, hjB, _, _, _⟩ := boundary_facts hf hj
  unfold fastDiffAtomic
  rw [hb]
  unfold changeIndexesToAtomicChanges
  dsimp only
  have hni : ((B.length : Int) - (j : Int) - (f : Int)).toNat = B.length - j - f := by
    omega
  have hnd : ((A.length : Int) - (j : Int) - (f : Int)).toNat = A.length - j - f := by
    omega
  have htail : (if ((B.length : Int) - (j : Int)) < (B.length : Int) then
      List.replicate (((B.length : Int) - ((B.length : Int) - (j : Int)))).toNat
        DiffOp.equal else [])
      = List.replicate j DiffOp.equal := by
    rw [show ((B.length : Int) - ((B.length : Int) - (j : Int))).toNat = j from by omega]
    by_cases h : ((B.length : Int) - (j : Int)) < (B.length : Int)
    · rw [if_pos h]
    · rw [if_neg h, show j = 0 from by omega]
      rfl
  rw [replicate_of_pos_if_nat, replicate_of_pos_if, replicate_of_pos_if, htail,
    hni, hnd, countTok_append, countTok_append, countTok_append,
    countTok_replicate, countTok_replicate, countTok_replicate, countTok_replicate,
    if_neg (by decide : DiffOp.equal ≠ DiffOp.delete),
    if_neg (by decide : DiffOp.insert ≠ DiffOp.delete), if_pos rfl,
    if_neg (by decide : DiffOp.equal ≠ DiffOp.delete)]
  omega

end Nontrivial

section UndefinedSlots

/-- `findFirstDifferenceIndex` stops at the first undefined slot whatever the
comparator says there: the short-circuit `arr1[i] === undefined ||
arr2[i] === undefined` fires before `cmp` is called. -/
theorem ffdi_first_undefined {cmp : Option α → Option α → Bool}
    {a1 a2 : List (Option α)} {i : Nat}
    (hin : i < max a1.length a2.length)
    (hat : jget a1 i = none ∨ jget a2 i = none)
    (hpre : ∀ j, j < i → (jget a1 j).isSome = true ∧ (jget a2 j).isSome = true ∧
      cmp (jget a1 j) (jget a2 j) = true) :
    findFirstDifferenceIndex cmp a1 a2 = some i := by
  unfold findFirstDifferenceIndex
  refine find_range_some_of hin ?_ ?_
  · rcases hat with hh | hh
    · rw [hh]
      rfl
    · rw [hh]
      simp
  · intro j hj
    obtain ⟨e1, e2, e3⟩ := hpre j hj
    obtain ⟨x1, hx1⟩ := Option.isSome_iff_exists.mp e1
    obtain ⟨x2, hx2⟩ := Option.isSome_iff_exists.mp e2
    rw [hx1, hx2] at e3
    rw [hx1, hx2, e3]
    rfl

/-- The boundary engine's anomaly on undefined-bearing inputs: identical
inputs with an undefined slot still yield a change record at that slot, and
the atomic stream is not the uniform equal-run. -/
theorem fastDiffAtomic_self_anomaly {cmp : Option α → Option α → Bool}
    {A : List (Option α)} {u : Nat} (hu : u < A.length) (hnone : jget A u = none)
    (hpre : ∀ j, j < u → (jget A j).isSome = true ∧ cmp (jget A j) (jget A j) = true) :
    findFirstDifferenceIndex cmp A A = some u ∧
      (∃ lo ln : Int, findChangeBoundaryIndexes cmp A A = some ⟨u, lo, ln⟩) ∧
      fastDiffAtomic cmp A A ≠ List.replicate A.length DiffOp.equal := by
  have hf : findFirstDifferenceIndex cmp A A = some u :=
    ffdi_first_undefined (by rw [max_self]; omega) (Or.inl hnone)
      (fun j hj => ⟨(hpre j hj).1, (hpre j hj).1, (hpre j hj).2⟩)
  obtain ⟨j, hb, hj⟩ := findChangeBoundaryIndexes_some hf
  obtain ⟨hjA, hjB, _, _, hlt⟩ := boundary_facts hf hj
  have hcnt := fastDiffAtomic_delete_count hf hj
  refine ⟨hf, ⟨_, _, hb⟩, ?_⟩
  intro heq
  rw [heq, countTok_replicate,
    if_neg (by decide : DiffOp.equal ≠ DiffOp.delete)] at hcnt
  omega

end UndefinedSlots

/-- Round trip of the whole client pipeline `getChanges` / `applyChanges`. -/
theorem getChanges_roundtrip [DecidableEq α] (A B : List (Option α)) :
    applyChanges A (getChanges A B) = B := by
  unfold getChanges
  obtain ⟨s, h1, h2⟩ := diff_ok jsStrictEq_symm A B
  rw [h1]
  simp only [Option.getD_some]
  exact diffToChanges_roundtrip jsStrictEq_sound h2

/-! ## The claims -/

/-- C1: for every pair of sequences `A`, `B` (default strict-equality
comparator), applying the patch list `diffToChanges(diff(A,B), B)` to a copy
of `A` with `applyChanges` yields exactly `B`. -/
theorem claim_C1 [DecidableEq α] (A B : List (Option α)) :
    applyChanges A (getChanges A B) = B :=
  getChanges_roundtrip A B

/-- C2: with a keystroke pending, `applyLocalChanges` computes the patch from
the shadow copy to the live-buffer snapshot, applies it to a scratch copy, and
— the check `output.join('') == input.join('')` always passing in this pure
model, by the round-trip — emits the patch and installs the scratch copy as
the new shadow copy, clearing the flag; with no keystroke pending it emits
nothing and changes nothing. -/
theorem claim_C2 [DecidableEq α] (syncValue currentData : List (Option α)) :
    applyLocalChanges syncValue true currentData
      = (some (getChanges syncValue currentData), currentData, false) ∧
    applyLocalChanges syncValue false currentData = (none, syncValue, false) := by
  constructor
  · unfold applyLocalChanges
    rw [if_pos rfl]
    dsimp only
    rw [if_pos (getChanges_roundtrip syncValue currentData).symm,
      getChanges_roundtrip]
  · rfl

/-- C3: `diff` returns the boundary engine's atomic stream exactly on the
large-input condition `len(A) > 200 ∨ len(B) > 200 ∨ len(A)+len(B) > 300`;
on every smaller input it runs the shortest-edit-script search (with the
swap of inputs and labels when `len(B) < len(A)`) and surfaces
`es[delta].slice(1)`: the full engine script minus its one leading bootstrap
token. -/
theorem claim_C3 (cmp : Option α → Option α → Bool) (A B : List (Option α)) :
    ((200 < A.length ∨ 200 < B.length ∨ 300 < A.length + B.length) →
      diff cmp A B = some (fastDiffAtomic cmp A B)) ∧
    (¬(200 < A.length ∨ 200 < B.length ∨ 300 < A.length + B.length) →
      diff cmp A B = sesDiff cmp A B ∧
      ∃ st full,
        diffLoop cmp (if B.length < A.length then B else A)
          (if B.length < A.length then A else B)
          (if B.length < A.length then DiffOp.delete else DiffOp.insert)
          (if B.length < A.length then DiffOp.insert else DiffOp.delete)
          ((if B.length < A.length then A else B).length
            - (if B.length < A.length then B else A).length)
          (if B.length < A.length then A else B).length
          ((if B.length < A.length then A else B).length + 1) 0
          ⟨fun _ => none, fun _ => none⟩ = some st ∧
        st.es (((if B.length < A.length then A else B).length
            - (if B.length < A.length then B else A).length : Nat) : Int)
          = some full ∧
        full ≠ [] ∧ diff cmp A B = some (full.drop 1)) := by
  constructor
  · intro h
    unfold diff
    rw [if_pos h]
  · intro h
    have hd : diff cmp A B = sesDiff cmp A B := by
      unfold diff
      rw [if_neg h]
    refine ⟨hd, ?_⟩
    by_cases hswap : B.length < A.length
    · obtain ⟨st', p', sf, hrun, hes, hne, _, _, _⟩ :=
        @engine_spec α cmp DiffOp.delete DiffOp.insert
          (by simp) (by simp) (by simp) B A (by omega)
      refine ⟨st', sf, ?_, ?_, hne, ?_⟩
      · simp only [if_pos hswap]
        exact hrun
      · simp only [if_pos hswap]
        exact hes
      · rw [hd]
        unfold sesDiff
        simp only [if_pos hswap]
        rw [hrun]
        simp only [hes]
    · obtain ⟨st', p', sf, hrun, hes, hne, _, _, _⟩ :=
        @engine_spec α cmp DiffOp.insert DiffOp.delete
          (by simp) (by simp) (by simp) A B (by omega)
      refine ⟨st', sf, ?_, ?_, hne, ?_⟩
      · simp only [if_neg hswap]
        exact hrun
      · simp only [if_neg hswap]
        exact hes
      · rw [hd]
        unfold sesDiff
        simp only [if_neg hswap]
        rw [hrun]
        simp only [hes]

/-- C4: on the classic example `A = "abcabba"`, `B = "cbabac"` the dispatcher
takes the search engine and the stream has exactly 5 non-equal tokens; in
general, on every input below the dispatch thresholds, the stream is a valid
edit path from `A` to `B` of minimal length. -/
theorem claim_C4 :
    (countTok DiffOp.insert ((diff jsStrictEq (str "abcabba") (str "cbabac")).getD [])
      + countTok DiffOp.delete ((diff jsStrictEq (str "abcabba") (str "cbabac")).getD [])
      = 5) ∧
    (∀ (β : Type) [DecidableEq β] (A B : List (Option β)),
      A.length ≤ 200 → B.length ≤ 200 → A.length + B.length ≤ 300 →
      ∃ s, diff jsStrictEq A B = some s ∧
        runTrace jsStrictEq DiffOp.insert DiffOp.delete s A B = true ∧
        ∀ s', runTrace jsStrictEq DiffOp.insert DiffOp.delete s' A B = true →
          s.length ≤ s'.length) := by
  constructor
  · decide
  · intro β _ A B h1 h2 h3
    exact diff_small_ok jsStrictEq_symm A B h1 h2 h3

/-- C4 at a concrete small input: the hypotheses of the general part hold and
the engine's answer for `diff("ab","a")` is a minimal valid script. -/
theorem claim_C4_witness :
    ∃ s, diff jsStrictEq (str "ab") (str "a") = some s ∧
      runTrace jsStrictEq DiffOp.insert DiffOp.delete s (str "ab") (str "a") = true ∧
      ∀ s', runTrace jsStrictEq DiffOp.insert DiffOp.delete s' (str "ab") (str "a")
          = true → s.length ≤ s'.length :=
  claim_C4.2 Char (str "ab") (str "a") (by decide) (by decide) (by decide)

/-- C5 (as the code behaves): the atomic stream
`[equal, insert, insert, equal, delete, delete, equal]` over `"xYZw"` compacts
to `insert {index 1, values "YZ"}` and `delete {index 4, howMany 2}` — the
delete index is the running index in the new sequence, past the insertions
*and* the following equal. -/
theorem claim_C5_amended :
    diffToChanges [DiffOp.equal, DiffOp.insert, DiffOp.insert, DiffOp.equal,
        DiffOp.delete, DiffOp.delete, DiffOp.equal] (str "xYZw")
      = [Change.insert 1 (str "YZ"), Change.delete 4 2] := by
  decide

/-- C5: the spec's delete record `{index: 3, count: 2}` is not what the
compactor produces on this stream (the index is 4). -/
theorem claim_C5_counterexample :
    diffToChanges [DiffOp.equal, DiffOp.insert, DiffOp.insert, DiffOp.equal,
        DiffOp.delete, DiffOp.delete, DiffOp.equal] (str "xYZw")
      ≠ [Change.insert 1 (str "YZ"), Change.delete 3 2] := by
  decide

/-- C6: on a proper sequence (every slot a defined value) `diff(A, A)` is the
uniform equal-run of length `len(A)` on both dispatcher branches, and the
compactor turns that stream into the empty patch list. -/
theorem claim_C6 [DecidableEq α] (A : List α) :
    diff jsStrictEq (A.map some) (A.map some)
        = some (List.replicate A.length DiffOp.equal) ∧
    diffToChanges (List.replicate A.length DiffOp.equal) (A.map some) = [] :=
  ⟨diff_self_map_some A, diffToChanges_replicate_eq⟩

/-- C7 (as the code behaves): the full atomic stream of `diff(A, B)` has
length `len(B)` plus the number of delete tokens — not `len(B)` itself. -/
theorem claim_C7_amended [DecidableEq α] (A B : List (Option α)) :
    ∃ s, diff jsStrictEq A B = some s ∧
      s.length = B.length + countTok DiffOp.delete s := by
  obtain ⟨s, h1, h2⟩ := diff_ok jsStrictEq_symm A B
  refine ⟨s, h1, ?_⟩
  obtain ⟨hd, hi⟩ := runTrace_counts (by decide) (by decide) (by decide) h2
  have htoks := @runTrace_tokens α jsStrictEq DiffOp.insert DiffOp.delete _ _ _ h2
  have hlen := @length_eq_countToks DiffOp.insert DiffOp.delete
    (by decide) (by decide) (by decide) _ htoks
  omega

/-- C7: `diff("ab", "a")` returns a stream ([equal, delete]) of length 2,
not of the new sequence's length 1, refuting the stated length invariant. -/
theorem claim_C7_counterexample :
    (diff jsStrictEq (str "ab") (str "a")).isSome = true ∧
    ((diff jsStrictEq (str "ab") (str "a")).getD []).length ≠ (str "a").length := by
  decide

/-- C8: on `"hello world"` / `"hello there world"` the boundary engine finds
`firstIndex = 6` (and `lastIndexOld = 6`, `lastIndexNew = 12`), and its
compacted patch list is the single insert of `"there "` at index 6 with no
delete. -/
theorem claim_C8 :
    findChangeBoundaryIndexes jsStrictEq (str "hello world")
        (str "hello there world") = some ⟨6, 6, 12⟩ ∧
    fastDiffCompacted jsStrictEq (str "hello world") (str "hello there world")
      = [Change.insert 6 (str "there ")] := by
  decide

/-- C9: `findFirstDifferenceIndex` returns the first undefined position
without consulting the comparator there (the comparator is arbitrary at that
slot), and consequently `fastDiff(A, A, cmp, true)` on an undefined-bearing
`A` reports a change region at that position instead of a uniform equal
stream, although its two inputs are identical. -/
theorem claim_C9 {α : Type} :
    (∀ (cmp : Option α → Option α → Bool) (a1 a2 : List (Option α)) (i : Nat),
      i < max a1.length a2.length →
      (jget a1 i = none ∨ jget a2 i = none) →
      (∀ j, j < i → (jget a1 j).isSome = true ∧ (jget a2 j).isSome = true ∧
        cmp (jget a1 j) (jget a2 j) = true) →
      findFirstDifferenceIndex cmp a1 a2 = some i) ∧
    (∀ (cmp : Option α → Option α → Bool) (A : List (Option α)) (u : Nat),
      u < A.length → jget A u = none →
      (∀ j, j < u → (jget A j).isSome = true ∧ cmp (jget A j) (jget A j) = true) →
      findFirstDifferenceIndex cmp A A = some u ∧
        (∃ lo ln : Int, findChangeBoundaryIndexes cmp A A = some ⟨u, lo, ln⟩) ∧
        fastDiffAtomic cmp A A ≠ List.replicate A.length DiffOp.equal) := by
  constructor
  · intro cmp a1 a2 i hin hat hpre
    exact ffdi_first_undefined hin hat hpre
  · intro cmp A u hu hnone hpre
    exact fastDiffAtomic_self_anomaly hu hnone hpre

/-- C9 at a concrete input: `A = [some 0, undefined]` under the default
comparator has its first undefined slot at 1, and `fastDiff(A, A, cmp, true)`
is not the uniform equal stream. -/
theorem claim_C9_witness :
    findFirstDifferenceIndex jsStrictEq ([some 0, none] : List (Option Nat))
        [some 0, none] = some 1 ∧
      (∃ lo ln : Int, findChangeBoundaryIndexes jsStrictEq
        ([some 0, none] : List (Option Nat)) [some 0, none] = some ⟨1, lo, ln⟩) ∧
      fastDiffAtomic jsStrictEq ([some 0, none] : List (Option Nat)) [some 0, none]
        ≠ List.replicate ([some 0, none] : List (Option Nat)).length DiffOp.equal :=
  claim_C9.2 jsStrictEq [some 0, none] 1 (by decide) (by decide) (by decide)

/-- C10: every operation emitted by the compactor or by the boundary engine's
compacted mode is non-trivial (inserts carry values, deletes remove at least
one element); an all-equal stream compacts to the empty patch list, and
identical proper inputs produce an empty patch list on both paths. -/
theorem claim_C10 [DecidableEq α] :
    (∀ (s : List DiffOp) (out : List (Option α)),
      ∀ c ∈ diffToChanges s out, nontrivialChange c) ∧
    (∀ (cmp : Option α → Option α → Bool) (A B : List (Option α)),
      ∀ c ∈ fastDiffCompacted cmp A B, nontrivialChange c) ∧
    (∀ (n : Nat) (out : List (Option α)),
      diffToChanges (List.replicate n DiffOp.equal) out = []) ∧
    (∀ A : List α,
      fastDiffCompacted jsStrictEq (A.map some) (A.map some) = [] ∧
      getChanges (A.map some) (A.map some) = []) := by
  refine ⟨?_, ?_, ?_, ?_⟩
  · intro s out c hc
    exact diffToChanges_nontrivial c hc
  · intro cmp A B c hc
    exact fastDiffCompacted_nontrivial c hc
  · intro n out
    exact diffToChanges_replicate_eq
  · intro A
    exact ⟨fastDiffCompacted_self A, getChanges_self A⟩

/-- C10 at a concrete input: the operations of a concrete compactor run are
non-trivial. -/
theorem claim_C10_witness :
    nontrivialChange (Change.insert 1 (str "YZ")) ∧
      nontrivialChange (Change.delete 4 2 : Change Char) :=
  ⟨(@claim_C10 Char _).1 [DiffOp.equal, DiffOp.insert, DiffOp.insert,
      DiffOp.equal, DiffOp.delete, DiffOp.delete, DiffOp.equal] (str "xYZw")
      (Change.insert 1 (str "YZ")) (by decide),
    (@claim_C10 Char _).1 [DiffOp.equal, DiffOp.insert, DiffOp.insert,
      DiffOp.equal, DiffOp.delete, DiffOp.delete, DiffOp.equal] (str "xYZw")
      (Change.delete 4 2 : Change Char) (by decide)⟩

end LiveCoding
